import Mathlib

/-!
# mysql_slowlogd: the record-aware rate limiter and the tailing state machine

A shallow embedding of `src/mysql_slowlogd.c`.  Bytes are natural numbers,
a buffer is a `List Nat`, pointers into the buffer are offsets from `buf`.
-/

namespace MysqlSlowlogd

/-! ## Constants (lines 61-62) -/

/-- The bytes of an ASCII string literal. -/
def bytes (s : String) : List Nat := s.data.map Char.toNat

/-- The record delimiter `QUERY_DELIM`, the bytes of `"# User@Host: "`. -/
def QUERY_DELIM : List Nat := [35, 32, 85, 115, 101, 114, 64, 72, 111, 115, 116, 58, 32]

/-- The constant `QUERY_DELIM_LEN`. -/
def QUERY_DELIM_LEN : Nat := 13

/-! ## The streaming delimiter matcher (`StreamBoyerMooreHorspool.h`, not part of the sources) -/

/-- Modelled from the spec: the matcher context `struct StreamBMH` of the absent
header `StreamBoyerMooreHorspool.h`.  Section 3 describes it as the persistent
partial-match progress; `found` is the flag `apply_rate_limit` reads (line 131)
and `lookbehind` holds the trailing bytes of the stream fed since the last
reset, at most one byte fewer than the delimiter. -/
structure StreamBMH where
  found : Bool
  lookbehind : List Nat
deriving DecidableEq

/-- The last `k` elements of a list. -/
def lastN (k : Nat) (l : List Nat) : List Nat := l.drop (l.length - k)

/-- Modelled from the spec: `sbmh_init` of the absent header; a context with no
match and no partial match. -/
def sbmh_init : StreamBMH := ⟨false, []⟩

/-- Modelled from the spec: `sbmh_reset` of the absent header (section 4.1: after a
confirmed match the caller resets the state, and the next search region is
independent). -/
def sbmh_reset (_ctx : StreamBMH) : StreamBMH := ⟨false, []⟩

/-- Modelled from the spec: `sbmh_feed` of the absent header, section 4.1.  It returns
the number of bytes consumed up to and including the end of the next delimiter
occurrence and sets `found`, or the whole input length with `found` unset when no
delimiter completes within this call.  The partial match persists in `lookbehind`,
so a delimiter split across two calls is detected.  A context whose match has not
been reset yet consumes nothing. -/
def sbmh_feed (needle : List Nat) (ctx : StreamBMH) : List Nat → Nat × StreamBMH
  | [] => (0, ctx)
  | b :: rest =>
    if ctx.found then (0, ctx)
    else if needle.isSuffixOf (ctx.lookbehind ++ [b]) then (1, ⟨true, []⟩)
    else
      let r := sbmh_feed needle ⟨false, lastN (needle.length - 1) (ctx.lookbehind ++ [b])⟩ rest
      (r.1 + 1, r.2)

/-! ## `apply_rate_limit` (lines 80-137) -/

/-- The C library `memmove(buf + dest, buf + src, n)` inside one buffer: the `n` bytes at
offset `src` are copied, as if through a temporary, to offset `dest`. -/
def memmove (buf : List Nat) (dest src n : Nat) : List Nat :=
  buf.take dest ++ (buf.drop src).take n ++ buf.drop (dest + n)

/-- The variables of the loop of `apply_rate_limit`: the buffer, the two cursors
`dest` and `next` as offsets from `buf`, `*rate_limit_counter` and `*bmh_context`. -/
structure RateLimitLoop where
  buf : List Nat
  dest : Nat
  next : Nat
  rate_limit_counter : Int
  bmh_context : StreamBMH
deriving DecidableEq

/-- One iteration of the loop body, lines 119-134: `sbmh_feed` on the unread bytes
`next[0 .. *len - (next - buf))`, the copy of a kept span down to `dest` when `dest` and
`next` differ, and the counter step `%`, which truncates toward zero, after a match. -/
def apply_rate_limit_body (len : Nat) (rate_limit : Int) (s : RateLimitLoop) : RateLimitLoop :=
  let r := sbmh_feed QUERY_DELIM s.bmh_context ((s.buf.drop s.next).take (len - s.next))
  let n := r.1
  let keep := decide (s.rate_limit_counter = 0)
  let buf1 := if keep && decide (s.dest ≠ s.next) then memmove s.buf s.dest s.next n else s.buf
  let dest1 := if keep then s.dest + n else s.dest
  let next1 := s.next + n
  if r.2.found then
    ⟨buf1, dest1, next1, Int.tmod (s.rate_limit_counter + 1) rate_limit, sbmh_reset r.2⟩
  else
    ⟨buf1, dest1, next1, s.rate_limit_counter, r.2⟩

/-- The loop `while ((next - buf) < *len)` of lines 118-135, with a bound on the
number of iterations. -/
def apply_rate_limit_loop (len : Nat) (rate_limit : Int) : Nat → RateLimitLoop → RateLimitLoop
  | 0, s => s
  | fuel + 1, s =>
    if s.next < len then
      apply_rate_limit_loop len rate_limit fuel (apply_rate_limit_body len rate_limit s)
    else s

/-- What `apply_rate_limit` leaves behind: the buffer, the updated `*len`, the updated
`*rate_limit_counter` and the matcher context. -/
structure RateLimited where
  buf : List Nat
  len : Nat
  rate_limit_counter : Int
  bmh_context : StreamBMH
deriving DecidableEq

/-- The function `apply_rate_limit`, lines 80-137.  Every iteration but a first one on a
context with `found` set consumes at least one byte, so `len + 1` iterations reach the
exit of the loop (`apply_rate_limit_spec`), and more iterations allowed change nothing
(`apply_rate_limit_loop_stable`).  The counter stays in `[0, rate_limit)` once it has
left -1, so `*rate_limit_counter + 1` does not overflow an `int`. -/
def apply_rate_limit (bmh_context : StreamBMH) (buf : List Nat) (len : Nat) (rate_limit : Int)
    (rate_limit_counter : Int) : RateLimited :=
  let s := apply_rate_limit_loop len rate_limit (len + 1) ⟨buf, 0, 0, rate_limit_counter, bmh_context⟩
  ⟨s.buf, s.dest, s.rate_limit_counter, s.bmh_context⟩

/-- The bytes the caller sends on: the first `len` bytes of the buffer. -/
def RateLimited.retained (r : RateLimited) : List Nat := r.buf.take r.len

/-! ## The retained bytes, span by span -/

/-- The state after a run of the rate limiter as a function of the input alone: the bytes
retained, the counter and the matcher context. -/
structure Kept where
  retained : List Nat
  rate_limit_counter : Int
  bmh_context : StreamBMH
deriving DecidableEq

/-- Put the bytes `p` in front of the retained bytes. -/
def Kept.prepend (p : List Nat) (k : Kept) : Kept :=
  ⟨p ++ k.retained, k.rate_limit_counter, k.bmh_context⟩

/-- The retained bytes as the contract words them: the input is cut into spans by
successive `sbmh_feed` results, a span scanned while the counter is 0 is kept, and the
counter advances after every span that ended in a confirmed match.  No buffer is
rewritten here; the spans are pieces of the original input. -/
def kept_spans (rate_limit : Int) : Nat → StreamBMH → Int → List Nat → Kept
  | 0, ctx, c, _ => ⟨[], c, ctx⟩
  | _ + 1, ctx, c, [] => ⟨[], c, ctx⟩
  | fuel + 1, ctx, c, b :: bs =>
    let r := sbmh_feed QUERY_DELIM ctx (b :: bs)
    let span := (b :: bs).take r.1
    Kept.prepend (if c = 0 then span else [])
      (if r.2.found then
        kept_spans rate_limit fuel (sbmh_reset r.2) (Int.tmod (c + 1) rate_limit) ((b :: bs).drop r.1)
      else
        kept_spans rate_limit fuel r.2 c ((b :: bs).drop r.1))

/-- The rate limiter byte by byte: a byte is kept when the counter is 0 as it is scanned,
and the counter advances after the last byte of each delimiter occurrence.  The first
argument is the look-behind of a matcher context with no pending match. -/
def scan (rate_limit : Int) : List Nat → Int → List Nat → Kept
  | lb, c, [] => ⟨[], c, ⟨false, lb⟩⟩
  | lb, c, b :: rest =>
    Kept.prepend (if c = 0 then [b] else [])
      (if QUERY_DELIM.isSuffixOf (lb ++ [b]) then
        scan rate_limit [] (Int.tmod (c + 1) rate_limit) rest
      else scan rate_limit (lastN (QUERY_DELIM.length - 1) (lb ++ [b])) c rest)

/-- The offset of the first occurrence of the delimiter in a byte sequence, if there is
one. -/
def first_delim : List Nat → Option Nat
  | [] => none
  | b :: bs =>
    if QUERY_DELIM.isPrefixOf (b :: bs) then some 0 else (first_delim bs).map (· + 1)

/-! ## The tailed file (lines 64-78) -/

/-- The fields of `struct stat` that the program reads. -/
structure Stat where
  st_mode : Nat
  st_mtime : Int
  st_size : Int
  st_dev : Nat
  st_ino : Nat
deriving DecidableEq

/-- The anonymous enumeration of the field `state` (lines 73-77). -/
inductive TailedFileState where
  | TAILED_FILE_STATE_START
  | TAILED_FILE_STATE_WAIT
  | TAILED_FILE_STATE_DUMP
deriving DecidableEq

open TailedFileState

/-- The record `struct tailed_file`.  The matcher context stands for `bmh_context`
together with its occurrence table `bmh_occ`. -/
structure tailed_file where
  name : String
  fd : Int
  st : Stat
  wait_count : Int
  rate_limit : Int
  rate_limit_counter : Int
  bmh_context : StreamBMH
  state : TailedFileState
deriving DecidableEq

/-- The constant `MHD_CONTENT_READER_END_OF_STREAM` of libmicrohttpd, `(size_t) -1`,
as the callback's `ssize_t` result. -/
def MHD_CONTENT_READER_END_OF_STREAM : Int := -1

/-- The constant `MHD_CONTENT_READER_END_WITH_ERROR` of libmicrohttpd,
`((size_t) -1) - 1`, as the callback's `ssize_t` result. -/
def MHD_CONTENT_READER_END_WITH_ERROR : Int := -2

/-- The largest `size_t`, which is what `(size_t) -1` is. -/
def SIZE_MAX : Nat := 2 ^ 64 - 1

/-- The conversion of a `size_t` to the `ssize_t` the callback returns. -/
def to_ssize_t (n : Nat) : Int :=
  if n % 2 ^ 64 < 2 ^ 63 then ((n % 2 ^ 64 : Nat) : Int) else ((n % 2 ^ 64 : Nat) : Int) - 2 ^ 64

/-- A system call of the reader, with its arguments.  A `read` also records the file
offset at which it starts. -/
inductive Syscall where
  | usleep (usec : Nat)
  | fstat (fd : Int)
  | stat (path : String)
  | close (fd : Int)
  | open_rdonly (path : String)
  | lseek_set (fd : Int) (offset : Nat)
  | read (fd : Int) (count : Nat) (offset : Nat)
deriving DecidableEq

/-- What the operating system answers during one call of the reader: the stat of the open
descriptor and of the path (`none` when the call fails), the value `open` returns, and
the bytes `read` delivers (`none` when it returns -1). -/
structure Sys where
  fstat_result : Option Stat
  stat_result : Option Stat
  open_result : Int
  read_result : Option (List Nat)
deriving DecidableEq

/-- The state between the blocks of the reader: the tailed file, the file offset of its
descriptor, and the system calls made so far. -/
structure Tailing where
  tf : tailed_file
  offset : Nat
  calls : List Syscall
deriving DecidableEq

/-- The block `if (TAILED_FILE_STATE_WAIT == tf->state)` of `tailed_file_content_reader`,
lines 188-234.  A descriptor returned by `open` starts at offset 0.  The result of
`lseek(tf->fd, 0, SEEK_SET)` is ignored by the source; here the call, on the descriptor
of a regular file on which `fstat` has just succeeded, sets the offset to 0. -/
def wait_block (sys : Sys) (tf : tailed_file) (offset : Nat) : Tailing :=
  let tf1 := { tf with wait_count := tf.wait_count + 1 }
  let calls := [Syscall.usleep (250 * 1000), Syscall.fstat tf.fd]
  match sys.fstat_result with
  | none => ⟨tf1, offset, calls⟩
  | some st_new =>
    if tf.st.st_mode = st_new.st_mode ∧ tf.st.st_mtime = st_new.st_mtime ∧
        tf.st.st_size = st_new.st_size then
      if tf1.wait_count ≥ 4 then
        match sys.stat_result with
        | none => ⟨{ tf1 with wait_count := 0 }, offset, calls ++ [Syscall.stat tf.name]⟩
        | some st_path =>
          if tf.st.st_ino ≠ st_path.st_ino ∨ tf.st.st_dev ≠ st_path.st_dev then
            let closing := if tf.fd > 0 then [Syscall.close tf.fd] else []
            let fd1 := sys.open_result
            ⟨{ tf1 with
                st := st_path
                fd := fd1
                state := if fd1 > 0 then TAILED_FILE_STATE_DUMP else tf1.state
                wait_count := 0 },
              0,
              calls ++ [Syscall.stat tf.name] ++ closing ++ [Syscall.open_rdonly tf.name]⟩
          else
            ⟨{ tf1 with wait_count := 0 }, offset, calls ++ [Syscall.stat tf.name]⟩
      else ⟨tf1, offset, calls⟩
    else
      let seeking := decide (st_new.st_size < tf.st.st_size)
      ⟨{ tf1 with wait_count := 0, st := st_new, state := TAILED_FILE_STATE_DUMP },
        if seeking then 0 else offset,
        calls ++ (if seeking then [Syscall.lseek_set tf.fd 0] else [])⟩

/-- What one call of `tailed_file_content_reader` leaves behind: the value returned, the
tailed file, the caller's buffer, the file offset of the descriptor and the system calls
made, in order. -/
structure Reader where
  ret : Int
  tf : tailed_file
  buf : List Nat
  offset : Nat
  calls : List Syscall
deriving DecidableEq

/-- The block `if (TAILED_FILE_STATE_DUMP == tf->state)`, lines 236-256.  The result of
`read` is stored in the `size_t` variable `n`, so -1 becomes `SIZE_MAX`, and the
comparison `n < 0` is one of unsigned numbers. -/
def dump_block (sys : Sys) (t : Tailing) (buf : List Nat) (max : Nat) : Reader :=
  let calls := t.calls ++ [Syscall.read t.tf.fd max t.offset]
  let data := (sys.read_result.getD []).take max
  let n : Nat := match sys.read_result with
    | none => SIZE_MAX
    | some _ => data.length
  let buf1 := data ++ buf.drop data.length
  let offset1 := t.offset + data.length
  if 0 = n then
    ⟨0, { t.tf with state := TAILED_FILE_STATE_WAIT }, buf1, offset1, calls⟩
  else if n < 0 then
    ⟨MHD_CONTENT_READER_END_WITH_ERROR, t.tf, buf1, offset1, calls⟩
  else if t.tf.rate_limit_counter < 0 ∨ t.tf.rate_limit > 1 then
    let r := apply_rate_limit t.tf.bmh_context buf1 n t.tf.rate_limit t.tf.rate_limit_counter
    ⟨to_ssize_t r.len,
      { t.tf with rate_limit_counter := r.rate_limit_counter, bmh_context := r.bmh_context },
      r.buf, offset1, calls⟩
  else
    ⟨to_ssize_t n, t.tf, buf1, offset1, calls⟩

/-- The block `if (TAILED_FILE_STATE_START == tf->state)`, lines 258-272, and the final
`return 0`.  In `QUERY_DELIM_LEN >= max` the `int` is converted to `size_t`. -/
def start_block (t : Tailing) (buf : List Nat) (max : Nat) : Reader :=
  if t.tf.state = TAILED_FILE_STATE_START then
    if QUERY_DELIM_LEN ≥ max then
      ⟨MHD_CONTENT_READER_END_WITH_ERROR, t.tf, buf, t.offset, t.calls⟩
    else
      ⟨(QUERY_DELIM_LEN : Int),
        { t.tf with state := TAILED_FILE_STATE_DUMP, rate_limit_counter := -1 },
        QUERY_DELIM ++ buf.drop QUERY_DELIM_LEN, t.offset, t.calls⟩
  else
    ⟨0, t.tf, buf, t.offset, t.calls⟩

/-- The function `tailed_file_content_reader`, lines 183-275: `buf` is the caller's
buffer of size `max`, `offset` the file offset of the descriptor `tf.fd`. -/
def tailed_file_content_reader (sys : Sys) (tf : tailed_file) (offset : Nat) (buf : List Nat)
    (max : Nat) : Reader :=
  let t : Tailing :=
    if tf.state = TAILED_FILE_STATE_WAIT then wait_block sys tf offset else ⟨tf, offset, []⟩
  if t.tf.state = TAILED_FILE_STATE_DUMP then dump_block sys t buf max
  else start_block t buf max

/-- Successive calls of the reader, one for each answer of the operating system, each
starting from what the call before left. -/
def reader_polls (max : Nat) : List Sys → tailed_file → Nat → List Nat → List Reader
  | [], _, _, _ => []
  | sys :: rest, tf, offset, buf =>
    let r := tailed_file_content_reader sys tf offset buf max
    r :: reader_polls max rest r.tf r.offset r.buf

/-! ## Opening the file and serving the request (lines 149-178, 287-385) -/

/-- What the C library and the operating system answer while `open_tailed_file` runs, and
the uninitialised contents of the allocated record: `memset(tf, 0, sizeof(tf))` clears
only as many bytes as a pointer has, which is the field `name`. -/
structure OpenSys where
  malloc_tailed_file : Bool
  strdup_name : Bool
  stat_result : Option Stat
  open_result : Int
  malloc_context : Bool
  uninitialised : tailed_file
deriving DecidableEq

/-- The function `open_tailed_file`, lines 149-178; `none` is the `NULL` it returns from
`bail`. -/
def open_tailed_file (os : OpenSys) (filename : String) : Option tailed_file :=
  if !os.malloc_tailed_file then none
  else if !os.strdup_name then none
  else
    match os.stat_result with
    | none => none
    | some st =>
      if os.open_result < 0 then none
      else if !os.malloc_context then none
      else
        some { os.uninitialised with
          name := filename
          st := st
          fd := os.open_result
          state := TAILED_FILE_STATE_START
          bmh_context := sbmh_init }

/-- An execution that leaves defined behaviour. -/
inductive Fault where
  | null_pointer_dereference
deriving DecidableEq

/-- A response handed to `MHD_queue_response`: the status code and the body, which is
either a fixed text or the stream the reader produces for a tailed file. -/
inductive Queued where
  | fixed (status : Nat) (body : String)
  | stream (status : Nat) (tf : tailed_file)
deriving DecidableEq

/-- The value of `send_slow_log`: `MHD_NO`, or the result of queueing a response. -/
inductive Sent where
  | MHD_NO
  | queued (response : Queued)
deriving DecidableEq

/-- The assignment `tf->rate_limit = rate_limit` of line 295, through a pointer that may
be `NULL`. -/
def store_rate_limit (tf : Option tailed_file) (rate_limit : Int) :
    Except Fault (Option tailed_file) :=
  match tf with
  | none => .error Fault.null_pointer_dereference
  | some t => .ok (some { t with rate_limit := rate_limit })

/-- The text `server_error` of lines 291-292. -/
def server_error : String :=
  "Internal server error: unable to open slow log. Check syslog for more information.\n"

/-- The function `send_slow_log`, lines 287-331.  `lseek_ok` tells whether the seek to
the end of the file succeeds, `response_ok` whether the response object can be created. -/
def send_slow_log (os : OpenSys) (lseek_ok response_ok : Bool) (filename : String)
    (rate_limit : Int) : Except Fault Sent :=
  match store_rate_limit (open_tailed_file os filename) rate_limit with
  | .error f => .error f
  | .ok (some tf) =>
    if !lseek_ok then .ok Sent.MHD_NO
    else if !response_ok then .ok Sent.MHD_NO
    else .ok (Sent.queued (Queued.stream 200 tf))
  | .ok none =>
    if !response_ok then .ok Sent.MHD_NO
    else .ok (Sent.queued (Queued.fixed 500 server_error))

/-- The buffer made of complete records: each content preceded by the delimiter. -/
def records (contents : List (List Nat)) : List Nat :=
  (contents.map (fun c => QUERY_DELIM ++ c)).flatten

/-- The records whose position `i` (from `start`) has `i + 1` divisible by `N`: with
`start = 0` these are the positions `N - 1`, `2 N - 1`, ... -/
def kept_records (N : Nat) (start : Nat) (contents : List (List Nat)) : List (List Nat) :=
  ((contents.enumFrom start).filter (fun p => (p.1 + 1) % N = 0)).map
    (fun p => QUERY_DELIM ++ p.2)

/-- The bytes kept from the records that follow the content being scanned, when the
counter is `i % N` at the first of their delimiters: the delimiter of the record at
position `i` is kept when `N` divides `i`, its content when `N` divides `i + 1`. -/
def kept_after (N : Nat) : Nat → List (List Nat) → List Nat
  | _, [] => []
  | i, y :: ys =>
    (if i % N = 0 then QUERY_DELIM else []) ++ (if (i + 1) % N = 0 then y else []) ++
      kept_after N (i + 1) ys

/-! ## Sample values -/

/-- A sample `struct stat`: a regular file of 100 bytes. -/
def sample_stat : Stat := ⟨33188, 1700000000, 100, 2049, 7⟩

/-- A sample tailed file on descriptor 5 with `rate_limit` 1, in a given state and with a
given wait count. -/
def sample_tailed_file (state : TailedFileState) (wait_count : Int) : tailed_file :=
  ⟨"/var/log/mysql/slow.log", 5, sample_stat, wait_count, 1, 0, sbmh_init, state⟩

/-! ## Facts about the retained bytes -/

@[simp] theorem Kept.prepend_retained (p : List Nat) (k : Kept) :
    (Kept.prepend p k).retained = p ++ k.retained := rfl

@[simp] theorem Kept.prepend_counter (p : List Nat) (k : Kept) :
    (Kept.prepend p k).rate_limit_counter = k.rate_limit_counter := rfl

@[simp] theorem Kept.prepend_context (p : List Nat) (k : Kept) :
    (Kept.prepend p k).bmh_context = k.bmh_context := rfl

theorem Kept.prepend_prepend (p q : List Nat) (k : Kept) :
    Kept.prepend p (Kept.prepend q k) = Kept.prepend (p ++ q) k := by
  simp [Kept.prepend]

/-! ## Facts about the matcher -/

theorem sbmh_feed_le (needle : List Nat) (ctx : StreamBMH) (data : List Nat) :
    (sbmh_feed needle ctx data).1 ≤ data.length := by
  induction data generalizing ctx with
  | nil => simp [sbmh_feed]
  | cons b rest ih =>
    unfold sbmh_feed
    split
    · simp
    · split
      · simp
      · have := ih ⟨false, lastN (needle.length - 1) (ctx.lookbehind ++ [b])⟩
        simp only [List.length_cons]
        omega

theorem sbmh_feed_of_found (needle : List Nat) (ctx : StreamBMH) (data : List Nat)
    (h : ctx.found = true) : sbmh_feed needle ctx data = (0, ctx) := by
  cases data <;> simp [sbmh_feed, h]

/-- One step of `sbmh_feed` on a context with no pending match. -/
theorem sbmh_feed_cons (needle : List Nat) (lb : List Nat) (b : Nat) (rest : List Nat) :
    sbmh_feed needle ⟨false, lb⟩ (b :: rest) =
      if needle.isSuffixOf (lb ++ [b]) = true then (1, ⟨true, []⟩)
      else ((sbmh_feed needle ⟨false, lastN (needle.length - 1) (lb ++ [b])⟩ rest).1 + 1,
            (sbmh_feed needle ⟨false, lastN (needle.length - 1) (lb ++ [b])⟩ rest).2) := by
  rw [sbmh_feed]
  simp

theorem sbmh_feed_pos (needle : List Nat) (ctx : StreamBMH) (b : Nat) (rest : List Nat)
    (h : ctx.found = false) : 1 ≤ (sbmh_feed needle ctx (b :: rest)).1 := by
  obtain ⟨f, lb⟩ := ctx
  simp only at h
  subst h
  rw [sbmh_feed_cons]
  split <;> simp

/-- A matcher context with no match is its look-behind. -/
theorem StreamBMH.eq_of_not_found (ctx : StreamBMH) (h : ctx.found = false) :
    ctx = ⟨false, ctx.lookbehind⟩ := by
  obtain ⟨f, lb⟩ := ctx
  simp only at h
  subst h
  rfl

/-- A match that completes within the first bytes does not depend on the bytes after
them. -/
theorem sbmh_feed_append_found (needle : List Nat) (a b : List Nat) : ∀ ctx : StreamBMH,
    (sbmh_feed needle ctx a).2.found = true →
    sbmh_feed needle ctx (a ++ b) = sbmh_feed needle ctx a := by
  induction a with
  | nil =>
    intro ctx h
    simp only [sbmh_feed] at h
    rw [List.nil_append, sbmh_feed_of_found needle ctx b h]
    simp [sbmh_feed]
  | cons x xs ih =>
    intro ctx h
    by_cases hf : ctx.found = true
    · rw [sbmh_feed_of_found needle ctx _ hf, sbmh_feed_of_found needle ctx _ hf]
    · have hf' : ctx.found = false := by rw [← Bool.not_eq_true]; exact hf
      rw [StreamBMH.eq_of_not_found ctx hf'] at h ⊢
      rw [List.cons_append, sbmh_feed_cons, sbmh_feed_cons]
      rw [sbmh_feed_cons] at h
      by_cases hs : needle.isSuffixOf (ctx.lookbehind ++ [x]) = true
      · simp only [hs, if_true]
      · simp only [hs, if_false] at h ⊢
        rw [ih _ h]

/-- When no match completes, the whole input is consumed. -/
theorem sbmh_feed_not_found (needle : List Nat) (ctx : StreamBMH) (data : List Nat)
    (h : ctx.found = false) (h2 : (sbmh_feed needle ctx data).2.found = false) :
    (sbmh_feed needle ctx data).1 = data.length := by
  induction data generalizing ctx with
  | nil => simp [sbmh_feed]
  | cons b rest ih =>
    obtain ⟨f, lb⟩ := ctx
    simp only at h
    subst h
    rw [sbmh_feed_cons] at h2 ⊢
    split
    · rename_i hs
      simp [hs] at h2
    · rename_i hs
      simp only [hs] at h2
      have := ih ⟨false, lastN (needle.length - 1) (lb ++ [b])⟩ rfl h2
      simp [this]

/-! ## The loop rewrites the buffer to the kept spans -/

/-- The unread bytes the loop hands to `sbmh_feed`. -/
theorem unread_eq (K G U T : List Nat) :
    ((K ++ G ++ U ++ T).drop (K.length + G.length)).take
      (K.length + G.length + U.length - (K.length + G.length)) = U := by
  have h1 : (K ++ G ++ U ++ T).drop (K.length + G.length) = U ++ T := by
    have : K ++ G ++ U ++ T = (K ++ G) ++ (U ++ T) := by simp
    rw [this, ← List.length_append, List.drop_left]
  rw [h1]
  have h2 : K.length + G.length + U.length - (K.length + G.length) = U.length := by omega
  rw [h2, List.take_left]

/-- The overlapping copy with `dest ≤ next`: the span `S` lands right after the kept
bytes `K`, and the unread bytes `R` stay where they are. -/
theorem memmove_split (K G S R : List Nat) :
    memmove (K ++ G ++ S ++ R) K.length (K.length + G.length) S.length =
      K ++ S ++ (G ++ S).drop S.length ++ R := by
  unfold memmove
  have h1 : (K ++ G ++ S ++ R).take K.length = K := by
    have : K ++ G ++ S ++ R = K ++ (G ++ S ++ R) := by simp
    rw [this, List.take_left]
  have h2 : ((K ++ G ++ S ++ R).drop (K.length + G.length)).take S.length = S := by
    have : K ++ G ++ S ++ R = (K ++ G) ++ (S ++ R) := by simp
    rw [this, ← List.length_append, List.drop_left, List.take_left]
  have h3 : (K ++ G ++ S ++ R).drop (K.length + S.length) = (G ++ S).drop S.length ++ R := by
    have : K ++ G ++ S ++ R = K ++ ((G ++ S) ++ R) := by simp
    rw [this, List.drop_append, List.drop_append_of_le_length (by simp)]
  rw [h1, h2, h3]
  simp

/-- One iteration of the loop on a buffer `K ++ G ++ U ++ T`: `K` the bytes kept so far,
`G` the gap between `dest` and `next`, `U` the unread bytes below `len`, `T` the
bytes from `len` on. -/
theorem apply_rate_limit_body_spec (N : Int) (K G U T : List Nat) (c : Int) (ctx : StreamBMH) :
    apply_rate_limit_body (K.length + G.length + U.length) N
        ⟨K ++ G ++ U ++ T, K.length, K.length + G.length, c, ctx⟩ =
      ⟨(K ++ if c = 0 then U.take (sbmh_feed QUERY_DELIM ctx U).1 else []) ++
          (if c = 0 then (G ++ U.take (sbmh_feed QUERY_DELIM ctx U).1).drop
              (sbmh_feed QUERY_DELIM ctx U).1
            else G ++ U.take (sbmh_feed QUERY_DELIM ctx U).1) ++
          U.drop (sbmh_feed QUERY_DELIM ctx U).1 ++ T,
        (K ++ if c = 0 then U.take (sbmh_feed QUERY_DELIM ctx U).1 else []).length,
        (K ++ if c = 0 then U.take (sbmh_feed QUERY_DELIM ctx U).1 else []).length +
          (if c = 0 then (G ++ U.take (sbmh_feed QUERY_DELIM ctx U).1).drop
              (sbmh_feed QUERY_DELIM ctx U).1
            else G ++ U.take (sbmh_feed QUERY_DELIM ctx U).1).length,
        if (sbmh_feed QUERY_DELIM ctx U).2.found then Int.tmod (c + 1) N else c,
        if (sbmh_feed QUERY_DELIM ctx U).2.found then sbmh_reset (sbmh_feed QUERY_DELIM ctx U).2
          else (sbmh_feed QUERY_DELIM ctx U).2⟩ := by
  have hle := sbmh_feed_le QUERY_DELIM ctx U
  unfold apply_rate_limit_body
  simp only [unread_eq]
  generalize sbmh_feed QUERY_DELIM ctx U = r at hle ⊢
  obtain ⟨n, ctx1⟩ := r
  simp only at hle ⊢
  obtain ⟨S, U', rfl, hn⟩ : ∃ S U', U = S ++ U' ∧ S.length = n :=
    ⟨U.take n, U.drop n, (List.take_append_drop n U).symm, by simp [hle]⟩
  subst hn
  have hU : K ++ G ++ (S ++ U') ++ T = K ++ G ++ S ++ (U' ++ T) := by simp
  simp only [List.take_left, List.drop_left]
  by_cases hc : c = 0
  · by_cases hG : G = []
    · subst hG
      by_cases hf : ctx1.found = true <;> simp [hc, hf]
    · have hne : K.length ≠ K.length + G.length := by
        have : 0 < G.length := List.length_pos.mpr hG
        omega
      have hGl : (G.length + S.length - S.length) = G.length := by omega
      have hmove : memmove (K ++ (G ++ (S ++ (U' ++ T)))) K.length (K.length + G.length) S.length =
          K ++ (S ++ (List.drop S.length (G ++ S) ++ (U' ++ T))) := by
        have := memmove_split K G S (U' ++ T)
        simpa using this
      by_cases hf : ctx1.found = true <;>
        simp [hc, hf, hne, hU, hmove, hGl, Nat.add_assoc, Nat.add_comm] <;> omega
  · by_cases hf : ctx1.found = true <;> simp [hc, hf, Nat.add_assoc]

/-- The invariant of the loop.  On a buffer `K ++ G ++ U ++ T` with `dest` after `K`,
`next` after `G` and `len` after `U`, the loop leaves `K` followed by the kept spans of
`U`, does not touch `T`, and ends with the counter and context of `kept_spans`; with
enough iterations allowed it leaves through the loop condition. -/
theorem apply_rate_limit_loop_spec (N : Int) : ∀ (fuel : Nat) (K G U T : List Nat) (c : Int)
    (ctx : StreamBMH),
    ∃ G' : List Nat,
      (apply_rate_limit_loop (K.length + G.length + U.length) N fuel
          ⟨K ++ G ++ U ++ T, K.length, K.length + G.length, c, ctx⟩).buf =
        K ++ (kept_spans N fuel ctx c U).retained ++ G' ++ T ∧
      (apply_rate_limit_loop (K.length + G.length + U.length) N fuel
          ⟨K ++ G ++ U ++ T, K.length, K.length + G.length, c, ctx⟩).dest =
        (K ++ (kept_spans N fuel ctx c U).retained).length ∧
      (apply_rate_limit_loop (K.length + G.length + U.length) N fuel
          ⟨K ++ G ++ U ++ T, K.length, K.length + G.length, c, ctx⟩).rate_limit_counter =
        (kept_spans N fuel ctx c U).rate_limit_counter ∧
      (apply_rate_limit_loop (K.length + G.length + U.length) N fuel
          ⟨K ++ G ++ U ++ T, K.length, K.length + G.length, c, ctx⟩).bmh_context =
        (kept_spans N fuel ctx c U).bmh_context ∧
      ((kept_spans N fuel ctx c U).retained ++ G').length = G.length + U.length ∧
      (U.length + (if ctx.found then 1 else 0) ≤ fuel →
        (apply_rate_limit_loop (K.length + G.length + U.length) N fuel
          ⟨K ++ G ++ U ++ T, K.length, K.length + G.length, c, ctx⟩).next =
        K.length + G.length + U.length) := by
  intro fuel
  induction fuel with
  | zero =>
    intro K G U T c ctx
    refine ⟨G ++ U, ?_⟩
    simp only [apply_rate_limit_loop, kept_spans]
    refine ⟨by simp, by simp, by simp, by simp, by simp, ?_⟩
    intro h
    have : U.length = 0 := by omega
    omega
  | succ fuel ih =>
    intro K G U T c ctx
    cases U with
    | nil =>
      refine ⟨G, ?_⟩
      simp [apply_rate_limit_loop, kept_spans]
    | cons b bs =>
      have hlt : K.length + G.length < K.length + G.length + (b :: bs).length := by simp
      rw [apply_rate_limit_loop]
      simp only [hlt, if_true]
      rw [apply_rate_limit_body_spec]
      have hle := sbmh_feed_le QUERY_DELIM ctx (b :: bs)
      have hpos := sbmh_feed_pos QUERY_DELIM ctx b bs
      have hfnd := sbmh_feed_of_found QUERY_DELIM ctx (b :: bs)
      rw [kept_spans]
      generalize sbmh_feed QUERY_DELIM ctx (b :: bs) = r at hle hpos hfnd ⊢
      obtain ⟨n, ctx1⟩ := r
      simp only at hle hpos hfnd ⊢
      generalize hU : b :: bs = U at hle ⊢
      obtain ⟨S, U', rfl, hn⟩ : ∃ S U', U = S ++ U' ∧ S.length = n :=
        ⟨U.take n, U.drop n, (List.take_append_drop n U).symm, by simp [hle]⟩
      subst hn
      simp only [List.take_left, List.drop_left, Kept.prepend_retained, Kept.prepend_counter,
        Kept.prepend_context]
      have hlen : ∀ (K1 G1 : List Nat), K1.length + G1.length = K.length + G.length + S.length →
          K.length + G.length + (S ++ U').length = K1.length + G1.length + U'.length := by
        intro K1 G1 h
        simp only [List.length_append]
        omega
      have hfuel : (S ++ U').length + (if ctx.found then 1 else 0) ≤ fuel + 1 →
          U'.length ≤ fuel := by
        intro h
        by_cases hcf : ctx.found = true
        · simp only [hcf, if_true] at h
          simp only [List.length_append] at h
          omega
        · have h1 := hpos (by simpa using hcf)
          simp only [List.length_append] at h
          omega
      by_cases hc : c = 0
      · have hK : (K ++ S).length + (List.drop S.length (G ++ S)).length =
            K.length + G.length + S.length := by
          simp only [List.length_append, List.length_drop]
          omega
        simp only [hc, if_true]
        rw [hlen (K ++ S) (List.drop S.length (G ++ S)) hK]
        by_cases hf : ctx1.found = true
        · simp only [hf, if_true]
          obtain ⟨G', h1, h2, h3, h4, h5, h6⟩ :=
            ih (K ++ S) (List.drop S.length (G ++ S)) U' T (Int.tmod (0 + 1) N) (sbmh_reset ctx1)
          refine ⟨G', ?_, ?_, h3, h4, ?_, ?_⟩
          · rw [h1]; simp
          · rw [h2]; simp
          · simp only [List.length_append, List.length_drop] at h5 ⊢
            omega
          · intro h
            rw [h6 (by simpa [sbmh_reset] using hfuel (by simpa [hc] using h))]
        · have hf' : ctx1.found = false := by simpa using hf
          simp only [hf', Bool.false_eq_true, if_false]
          obtain ⟨G', h1, h2, h3, h4, h5, h6⟩ :=
            ih (K ++ S) (List.drop S.length (G ++ S)) U' T 0 ctx1
          refine ⟨G', ?_, ?_, h3, h4, ?_, ?_⟩
          · rw [h1]; simp
          · rw [h2]; simp
          · simp only [List.length_append, List.length_drop] at h5 ⊢
            omega
          · intro h
            rw [h6 (by simpa [hf'] using hfuel (by simpa [hc] using h))]
      · have hK : (K ++ []).length + (G ++ S).length = K.length + G.length + S.length := by
          simp only [List.length_append, List.length_nil]
          omega
        simp only [hc, if_false]
        rw [hlen (K ++ []) (G ++ S) hK]
        by_cases hf : ctx1.found = true
        · simp only [hf, if_true]
          obtain ⟨G', h1, h2, h3, h4, h5, h6⟩ :=
            ih (K ++ []) (G ++ S) U' T (Int.tmod (c + 1) N) (sbmh_reset ctx1)
          refine ⟨G', ?_, ?_, h3, h4, ?_, ?_⟩
          · rw [h1]; simp
          · rw [h2]; simp
          · simp only [List.length_append, List.length_nil, List.nil_append] at h5 ⊢
            omega
          · intro h
            rw [h6 (by simpa [sbmh_reset] using hfuel h)]
        · have hf' : ctx1.found = false := by simpa using hf
          simp only [hf', Bool.false_eq_true, if_false]
          obtain ⟨G', h1, h2, h3, h4, h5, h6⟩ := ih (K ++ []) (G ++ S) U' T c ctx1
          refine ⟨G', ?_, ?_, h3, h4, ?_, ?_⟩
          · rw [h1]; simp
          · rw [h2]; simp
          · simp only [List.length_append, List.length_nil, List.nil_append] at h5 ⊢
            omega
          · intro h
            rw [h6 (by simpa [hf'] using hfuel h)]

/-- What `apply_rate_limit` computes, for any valid length `len` of a buffer: the loop
leaves through its condition (`next` reaches `len`), the retained bytes are the kept
spans of the first `len` bytes of the original buffer, and no byte from `len` on is
touched. -/
theorem apply_rate_limit_spec (ctx : StreamBMH) (buf : List Nat) (len : Nat) (N c : Int)
    (hlen : len ≤ buf.length) :
    (apply_rate_limit_loop len N (len + 1) ⟨buf, 0, 0, c, ctx⟩).next = len ∧
    (apply_rate_limit ctx buf len N c).retained =
      (kept_spans N (len + 1) ctx c (buf.take len)).retained ∧
    (apply_rate_limit ctx buf len N c).len =
      (kept_spans N (len + 1) ctx c (buf.take len)).retained.length ∧
    (apply_rate_limit ctx buf len N c).len ≤ len ∧
    (apply_rate_limit ctx buf len N c).rate_limit_counter =
      (kept_spans N (len + 1) ctx c (buf.take len)).rate_limit_counter ∧
    (apply_rate_limit ctx buf len N c).bmh_context =
      (kept_spans N (len + 1) ctx c (buf.take len)).bmh_context ∧
    (apply_rate_limit ctx buf len N c).buf.drop len = buf.drop len := by
  have hU : (buf.take len).length = len := by simp [hlen]
  obtain ⟨G', h1, h2, h3, h4, h5, h6⟩ :=
    apply_rate_limit_loop_spec N (len + 1) [] [] (buf.take len) (buf.drop len) c ctx
  simp only [List.nil_append, List.length_nil, Nat.zero_add, hU, List.take_append_drop] at h1 h2 h3 h4 h5 h6
  have hk : (kept_spans N (len + 1) ctx c (buf.take len)).retained.length + G'.length = len := by
    simpa using h5
  have h6' := h6 (by split <;> omega)
  unfold apply_rate_limit RateLimited.retained
  simp only
  refine ⟨h6', ?_, h2, by omega, h3, h4, ?_⟩
  · rw [h1, h2]
    simp [List.append_assoc]
  · rw [h1]
    have := List.drop_left ((kept_spans N (len + 1) ctx c (buf.take len)).retained ++ G')
      (buf.drop len)
    rw [h5] at this
    exact this

/-! ## From spans to bytes -/

/-- The byte-wise scan, cut at the first `sbmh_feed` result. -/
theorem scan_span (N : Int) (bs : List Nat) : ∀ (lb : List Nat) (c : Int) (b : Nat),
    scan N lb c (b :: bs) =
      Kept.prepend
        (if c = 0 then (b :: bs).take (sbmh_feed QUERY_DELIM ⟨false, lb⟩ (b :: bs)).1 else [])
        (if (sbmh_feed QUERY_DELIM ⟨false, lb⟩ (b :: bs)).2.found then
          scan N [] (Int.tmod (c + 1) N)
            ((b :: bs).drop (sbmh_feed QUERY_DELIM ⟨false, lb⟩ (b :: bs)).1)
        else
          scan N (sbmh_feed QUERY_DELIM ⟨false, lb⟩ (b :: bs)).2.lookbehind c
            ((b :: bs).drop (sbmh_feed QUERY_DELIM ⟨false, lb⟩ (b :: bs)).1)) := by
  induction bs with
  | nil =>
    intro lb c b
    rw [sbmh_feed_cons]
    by_cases hs : QUERY_DELIM.isSuffixOf (lb ++ [b]) = true
    · simp [scan, hs]
    · simp [scan, hs, sbmh_feed]
  | cons b' bs' ih =>
    intro lb c b
    rw [sbmh_feed_cons]
    by_cases hs : QUERY_DELIM.isSuffixOf (lb ++ [b]) = true
    · rw [scan]
      simp [hs]
    · have hs' : QUERY_DELIM.isSuffixOf (lb ++ [b]) = false := by
        rw [← Bool.not_eq_true]; exact hs
      rw [scan]
      simp only [hs', Bool.false_eq_true, if_false]
      have h := ih (lastN (QUERY_DELIM.length - 1) (lb ++ [b])) c b'
      by_cases hc : c = 0
      · simp only [hc, if_true] at h ⊢
        rw [h, Kept.prepend_prepend]
        simp
      · simp only [hc, if_false] at h ⊢
        rw [h, Kept.prepend_prepend]
        simp

/-- On a context with no pending match the spans are the byte-wise scan, for every
bound that is at least the length of the input. -/
theorem kept_spans_eq_scan (N : Int) : ∀ (fuel : Nat) (lb : List Nat) (c : Int) (data : List Nat),
    data.length ≤ fuel → kept_spans N fuel ⟨false, lb⟩ c data = scan N lb c data := by
  intro fuel
  induction fuel with
  | zero =>
    intro lb c data h
    have : data = [] := List.length_eq_zero.mp (by omega)
    subst this
    simp [kept_spans, scan]
  | succ fuel ih =>
    intro lb c data h
    cases data with
    | nil => simp [kept_spans, scan]
    | cons b bs =>
      rw [kept_spans, scan_span]
      have hpos := sbmh_feed_pos QUERY_DELIM ⟨false, lb⟩ b bs rfl
      have hle := sbmh_feed_le QUERY_DELIM ⟨false, lb⟩ (b :: bs)
      generalize sbmh_feed QUERY_DELIM ⟨false, lb⟩ (b :: bs) = r at hpos hle ⊢
      obtain ⟨n, ctx1⟩ := r
      simp only at hpos hle ⊢
      have hd : ((b :: bs).drop n).length ≤ fuel := by
        simp only [List.length_drop]
        simp only [List.length_cons] at h hle ⊢
        omega
      by_cases hf : ctx1.found = true
      · simp only [hf, if_true, sbmh_reset]
        rw [ih [] _ _ hd]
      · have hf' : ctx1.found = false := by simpa using hf
        simp only [hf', Bool.false_eq_true, if_false]
        rw [StreamBMH.eq_of_not_found ctx1 hf', ih _ _ _ hd]

/-- On a context whose match is still pending, the first call of the matcher consumes
nothing, the counter advances and the context is reset. -/
theorem kept_spans_of_found (N : Int) (fuel : Nat) (ctx : StreamBMH) (c : Int) (b : Nat)
    (bs : List Nat) (h : ctx.found = true) :
    kept_spans N (fuel + 1) ctx c (b :: bs) =
      kept_spans N fuel ⟨false, []⟩ (Int.tmod (c + 1) N) (b :: bs) := by
  rw [kept_spans, sbmh_feed_of_found _ _ _ h]
  simp [h, sbmh_reset, Kept.prepend]

/-- The run of `apply_rate_limit` on a whole buffer, from a context with no pending
match, is the byte-wise scan. -/
theorem apply_rate_limit_eq_scan (lb : List Nat) (buf : List Nat) (N c : Int) :
    (apply_rate_limit ⟨false, lb⟩ buf buf.length N c).retained = (scan N lb c buf).retained ∧
    (apply_rate_limit ⟨false, lb⟩ buf buf.length N c).len = (scan N lb c buf).retained.length ∧
    (apply_rate_limit ⟨false, lb⟩ buf buf.length N c).rate_limit_counter =
      (scan N lb c buf).rate_limit_counter ∧
    (apply_rate_limit ⟨false, lb⟩ buf buf.length N c).bmh_context =
      (scan N lb c buf).bmh_context := by
  obtain ⟨-, h2, h3, -, h5, h6, -⟩ :=
    apply_rate_limit_spec ⟨false, lb⟩ buf buf.length N c (le_refl _)
  rw [List.take_length, kept_spans_eq_scan N _ lb c buf (by omega)] at h2 h3 h5 h6
  exact ⟨h2, h3, h5, h6⟩

/-- The byte-wise scan of `a ++ b` is the scan of `a` followed by the scan of `b` from
the state `a` left. -/
theorem scan_append (N : Int) (a b : List Nat) : ∀ (lb : List Nat) (c : Int),
    scan N lb c (a ++ b) =
      Kept.prepend (scan N lb c a).retained
        (scan N (scan N lb c a).bmh_context.lookbehind (scan N lb c a).rate_limit_counter b) := by
  induction a with
  | nil =>
    intro lb c
    simp [scan, Kept.prepend]
  | cons x xs ih =>
    intro lb c
    have h1 : scan N lb c (x :: xs ++ b) =
        Kept.prepend (if c = 0 then [x] else [])
          (if QUERY_DELIM.isSuffixOf (lb ++ [x]) then scan N [] (Int.tmod (c + 1) N) (xs ++ b)
          else scan N (lastN (QUERY_DELIM.length - 1) (lb ++ [x])) c (xs ++ b)) := by
      rw [List.cons_append, scan]
    have h2 : scan N lb c (x :: xs) =
        Kept.prepend (if c = 0 then [x] else [])
          (if QUERY_DELIM.isSuffixOf (lb ++ [x]) then scan N [] (Int.tmod (c + 1) N) xs
          else scan N (lastN (QUERY_DELIM.length - 1) (lb ++ [x])) c xs) := by
      rw [scan]
    rw [h1, h2]
    by_cases hs : QUERY_DELIM.isSuffixOf (lb ++ [x]) = true
    · simp only [hs, if_true]
      rw [ih]
      simp [Kept.prepend]
    · have hs' : QUERY_DELIM.isSuffixOf (lb ++ [x]) = false := by
        rw [← Bool.not_eq_true]; exact hs
      simp only [hs', Bool.false_eq_true, if_false]
      rw [ih]
      simp [Kept.prepend]

/-- The scan never leaves a pending match. -/
theorem scan_found (N : Int) (data : List Nat) : ∀ (lb : List Nat) (c : Int),
    (scan N lb c data).bmh_context.found = false := by
  induction data with
  | nil => intro lb c; simp [scan]
  | cons x xs ih =>
    intro lb c
    rw [scan]
    by_cases hs : QUERY_DELIM.isSuffixOf (lb ++ [x]) = true
    · simp only [hs, if_true, Kept.prepend_context, ih]
    · have hs' : QUERY_DELIM.isSuffixOf (lb ++ [x]) = false := by
        rw [← Bool.not_eq_true]; exact hs
      simp only [hs', Bool.false_eq_true, if_false, Kept.prepend_context, ih]

/-- The kept spans are a subsequence of the input. -/
theorem kept_spans_sublist (N : Int) : ∀ (fuel : Nat) (ctx : StreamBMH) (c : Int) (data : List Nat),
    List.Sublist (kept_spans N fuel ctx c data).retained data := by
  intro fuel
  induction fuel with
  | zero => intro ctx c data; simp [kept_spans]
  | succ fuel ih =>
    intro ctx c data
    cases data with
    | nil => simp [kept_spans]
    | cons b bs =>
      rw [kept_spans]
      generalize sbmh_feed QUERY_DELIM ctx (b :: bs) = r
      simp only [Kept.prepend_retained]
      have hsplit : (b :: bs) = (b :: bs).take r.1 ++ (b :: bs).drop r.1 :=
        (List.take_append_drop _ _).symm
      have hpre : List.Sublist (if c = 0 then (b :: bs).take r.1 else []) ((b :: bs).take r.1) := by
        split
        · exact List.Sublist.refl _
        · exact List.nil_sublist _
      have hrest : List.Sublist
          (if r.2.found then
            kept_spans N fuel (sbmh_reset r.2) (Int.tmod (c + 1) N) ((b :: bs).drop r.1)
          else kept_spans N fuel r.2 c ((b :: bs).drop r.1)).retained ((b :: bs).drop r.1) := by
        split
        · exact ih _ _ _
        · exact ih _ _ _
      have := List.Sublist.append hpre hrest
      rw [← hsplit] at this
      exact this

/-- The run of `apply_rate_limit` on a whole buffer from any context. -/
theorem apply_rate_limit_eq_kept_spans (ctx : StreamBMH) (buf : List Nat) (N c : Int) :
    (apply_rate_limit ctx buf buf.length N c).retained =
      (kept_spans N (buf.length + 1) ctx c buf).retained ∧
    (apply_rate_limit ctx buf buf.length N c).rate_limit_counter =
      (kept_spans N (buf.length + 1) ctx c buf).rate_limit_counter ∧
    (apply_rate_limit ctx buf buf.length N c).bmh_context =
      (kept_spans N (buf.length + 1) ctx c buf).bmh_context := by
  obtain ⟨-, h2, -, -, h5, h6, -⟩ := apply_rate_limit_spec ctx buf buf.length N c (le_refl _)
  rw [List.take_length] at h2 h5 h6
  exact ⟨h2, h5, h6⟩

/-- Two calls on the two pieces of a stream from a context with no pending match. -/
theorem scan_chunks (N : Int) (a b : List Nat) (lb : List Nat) (c : Int) :
    (scan N lb c a).retained ++
        (apply_rate_limit (scan N lb c a).bmh_context b b.length N
          (scan N lb c a).rate_limit_counter).retained = (scan N lb c (a ++ b)).retained ∧
    (apply_rate_limit (scan N lb c a).bmh_context b b.length N
          (scan N lb c a).rate_limit_counter).rate_limit_counter =
      (scan N lb c (a ++ b)).rate_limit_counter ∧
    (apply_rate_limit (scan N lb c a).bmh_context b b.length N
          (scan N lb c a).rate_limit_counter).bmh_context =
      (scan N lb c (a ++ b)).bmh_context := by
  have hctx := StreamBMH.eq_of_not_found _ (scan_found N a lb c)
  obtain ⟨h1, -, h2, h3⟩ := apply_rate_limit_eq_scan (scan N lb c a).bmh_context.lookbehind b N
    (scan N lb c a).rate_limit_counter
  rw [← hctx] at h1 h2 h3
  rw [h1, h2, h3, scan_append]
  simp

/-- Two calls on the two pieces of a stream give what one call on the whole stream gives,
from every matcher context. -/
theorem apply_rate_limit_chunks (ctx : StreamBMH) (a b : List Nat) (N c : Int) :
    (apply_rate_limit ctx a a.length N c).retained ++
        (apply_rate_limit (apply_rate_limit ctx a a.length N c).bmh_context b b.length N
          (apply_rate_limit ctx a a.length N c).rate_limit_counter).retained =
      (apply_rate_limit ctx (a ++ b) (a ++ b).length N c).retained ∧
    (apply_rate_limit (apply_rate_limit ctx a a.length N c).bmh_context b b.length N
          (apply_rate_limit ctx a a.length N c).rate_limit_counter).rate_limit_counter =
      (apply_rate_limit ctx (a ++ b) (a ++ b).length N c).rate_limit_counter ∧
    (apply_rate_limit (apply_rate_limit ctx a a.length N c).bmh_context b b.length N
          (apply_rate_limit ctx a a.length N c).rate_limit_counter).bmh_context =
      (apply_rate_limit ctx (a ++ b) (a ++ b).length N c).bmh_context := by
  by_cases hf : ctx.found = true
  · cases a with
    | nil =>
      have h0 : apply_rate_limit ctx [] ([] : List Nat).length N c = ⟨[], 0, c, ctx⟩ := by
        simp [apply_rate_limit, apply_rate_limit_loop]
      rw [h0]
      simp [RateLimited.retained]
    | cons x xs =>
      obtain ⟨h1, h2, h3⟩ := apply_rate_limit_eq_kept_spans ctx (x :: xs) N c
      obtain ⟨g1, g2, g3⟩ := apply_rate_limit_eq_kept_spans ctx (x :: xs ++ b) N c
      rw [List.length_cons, kept_spans_of_found N _ ctx c x xs hf,
        kept_spans_eq_scan N _ [] _ _ (by simp)] at h1 h2 h3
      rw [List.cons_append, List.length_cons, kept_spans_of_found N _ ctx c x (xs ++ b) hf,
        kept_spans_eq_scan N _ [] _ _ (by simp)] at g1 g2 g3
      simp only [List.length_cons] at h1 h2 h3 ⊢
      simp only [List.cons_append, List.length_cons] at g1 g2 g3 ⊢
      rw [h1, h2, h3, g1, g2, g3]
      exact scan_chunks N (x :: xs) b [] _
  · have hf' : ctx.found = false := by rw [← Bool.not_eq_true]; exact hf
    have hctx := StreamBMH.eq_of_not_found ctx hf'
    obtain ⟨h1, -, h2, h3⟩ := apply_rate_limit_eq_scan ctx.lookbehind a N c
    obtain ⟨g1, -, g2, g3⟩ := apply_rate_limit_eq_scan ctx.lookbehind (a ++ b) N c
    rw [← hctx] at h1 h2 h3 g1 g2 g3
    rw [h1, h2, h3, g1, g2, g3]
    exact scan_chunks N a b ctx.lookbehind c

/-! ## The matcher finds the first occurrence of the delimiter -/

theorem lastN_suffix (k : Nat) (l : List Nat) : lastN k l <:+ l := List.drop_suffix _ _

theorem lastN_nil (k : Nat) : lastN k [] = [] := by simp [lastN]

/-- Whether the needle ends at the newest byte depends on the last bytes only. -/
theorem suffix_window (needle h : List Nat) (b k : Nat) (hk : needle.length ≤ k + 1) :
    needle <:+ lastN k h ++ [b] ↔ needle <:+ h ++ [b] := by
  have hw : lastN k h ++ [b] <:+ h ++ [b] := by
    obtain ⟨t, ht⟩ := lastN_suffix k h
    exact ⟨t, by rw [← List.append_assoc, ht]⟩
  constructor
  · intro hn
    exact hn.trans hw
  · intro hn
    apply List.suffix_of_suffix_length_le hn hw
    have h1 := hn.length_le
    simp only [lastN, List.length_append, List.length_drop, List.length_singleton] at h1 ⊢
    omega

/-- The window slides. -/
theorem lastN_window (h : List Nat) (b k : Nat) :
    lastN k (lastN k h ++ [b]) = lastN k (h ++ [b]) := by
  by_cases hle : h.length ≤ k
  · have : lastN k h = h := by simp [lastN, Nat.sub_eq_zero_of_le hle]
    rw [this]
  · have hd : h.length - k ≤ h.length := Nat.sub_le _ _
    have h1 : lastN k h ++ [b] = List.drop (h.length - k) (h ++ [b]) := by
      rw [lastN, List.drop_append_of_le_length hd]
    rw [h1, lastN, lastN, List.drop_drop]
    congr 1
    simp only [List.length_drop, List.length_append, List.length_singleton]
    omega

/-- Feeding bytes among which no delimiter occurrence ends: everything is consumed and
the window slides.  `hist` is the stream fed since the last reset. -/
theorem sbmh_feed_no_match (needle : List Nat) (hn : 1 ≤ needle.length) (data : List Nat) :
    ∀ hist : List Nat,
    (∀ k, 1 ≤ k → k ≤ data.length → ¬ needle <:+ hist ++ data.take k) →
    sbmh_feed needle ⟨false, lastN (needle.length - 1) hist⟩ data =
      (data.length, ⟨false, lastN (needle.length - 1) (hist ++ data)⟩) := by
  induction data with
  | nil => intro hist _; simp [sbmh_feed]
  | cons b rest ih =>
    intro hist h
    rw [sbmh_feed_cons]
    have h1 : ¬ needle <:+ hist ++ [b] := by
      have := h 1 (le_refl _) (by simp)
      simpa using this
    have h1' : ¬ needle.isSuffixOf (lastN (needle.length - 1) hist ++ [b]) = true := by
      rw [List.isSuffixOf_iff_suffix, suffix_window _ _ _ _ (by omega)]
      exact h1
    simp only [h1', if_false]
    rw [lastN_window]
    have := ih (hist ++ [b]) (by
      intro k hk1 hk2
      have := h (k + 1) (by omega) (by simp; omega)
      simpa using this)
    rw [this]
    simp

/-- Feeding bytes that end with the first delimiter occurrence: everything is
consumed and the match is reported. -/
theorem sbmh_feed_match (needle : List Nat) (hn : 1 ≤ needle.length) (data : List Nat) :
    ∀ hist : List Nat, data ≠ [] →
    (∀ k, 1 ≤ k → k < data.length → ¬ needle <:+ hist ++ data.take k) →
    needle <:+ hist ++ data →
    sbmh_feed needle ⟨false, lastN (needle.length - 1) hist⟩ data = (data.length, ⟨true, []⟩) := by
  induction data with
  | nil => intro hist hne; exact absurd rfl hne
  | cons b rest ih =>
    intro hist _ h hm
    rw [sbmh_feed_cons]
    cases rest with
    | nil =>
      have h1' : needle.isSuffixOf (lastN (needle.length - 1) hist ++ [b]) = true := by
        rw [List.isSuffixOf_iff_suffix, suffix_window _ _ _ _ (by omega)]
        exact hm
      simp [h1']
    | cons b2 rest2 =>
      have h1 : ¬ needle <:+ hist ++ [b] := by
        have := h 1 (le_refl _) (by simp)
        simpa using this
      have h1' : ¬ needle.isSuffixOf (lastN (needle.length - 1) hist ++ [b]) = true := by
        rw [List.isSuffixOf_iff_suffix, suffix_window _ _ _ _ (by omega)]
        exact h1
      simp only [h1', if_false]
      rw [lastN_window]
      have := ih (hist ++ [b]) (by simp) (by
        intro k hk1 hk2
        have := h (k + 1) (by omega) (by simp at hk2 ⊢; omega)
        simpa using this) (by simpa using hm)
      rw [this]
      simp

theorem QUERY_DELIM_length : QUERY_DELIM.length = 13 := rfl

/-- The first occurrence is an occurrence, and there is none before it. -/
theorem first_delim_some : ∀ (data : List Nat) (i : Nat), first_delim data = some i →
    QUERY_DELIM <+: data.drop i ∧ ∀ j, j < i → ¬ QUERY_DELIM <+: data.drop j := by
  intro data
  induction data with
  | nil => intro i h; simp [first_delim] at h
  | cons b bs ih =>
    intro i h
    rw [first_delim] at h
    by_cases hp : QUERY_DELIM.isPrefixOf (b :: bs) = true
    · simp only [hp, if_true, Option.some.injEq] at h
      subst h
      refine ⟨by simpa using hp, ?_⟩
      intro j hj
      omega
    · have hp' : QUERY_DELIM.isPrefixOf (b :: bs) = false := by
        rw [← Bool.not_eq_true]; exact hp
      simp only [hp', Bool.false_eq_true, if_false, Option.map_eq_some'] at h
      obtain ⟨i', hi', rfl⟩ := h
      obtain ⟨h1, h2⟩ := ih i' hi'
      refine ⟨by simpa using h1, ?_⟩
      intro j hj
      cases j with
      | zero => simpa using hp
      | succ j => simpa using h2 j (by omega)

/-- Without a first occurrence there is no occurrence. -/
theorem first_delim_none : ∀ (data : List Nat), first_delim data = none →
    ∀ j, ¬ QUERY_DELIM <+: data.drop j := by
  intro data
  induction data with
  | nil =>
    intro _ j h
    have := h.length_le
    simp [QUERY_DELIM_length] at this
  | cons b bs ih =>
    intro h j
    rw [first_delim] at h
    by_cases hp : QUERY_DELIM.isPrefixOf (b :: bs) = true
    · simp [hp] at h
    · have hp' : QUERY_DELIM.isPrefixOf (b :: bs) = false := by
        rw [← Bool.not_eq_true]; exact hp
      simp only [hp', Bool.false_eq_true, if_false, Option.map_eq_none'] at h
      cases j with
      | zero => simpa using hp
      | succ j => simpa using ih h j

/-- An occurrence with none before it is the first occurrence. -/
theorem first_delim_eq (data : List Nat) (i : Nat) (h1 : QUERY_DELIM <+: data.drop i)
    (h2 : ∀ j, j < i → ¬ QUERY_DELIM <+: data.drop j) : first_delim data = some i := by
  cases h : first_delim data with
  | none => exact absurd h1 (first_delim_none data h i)
  | some i' =>
    obtain ⟨g1, g2⟩ := first_delim_some data i' h
    rcases Nat.lt_trichotomy i i' with hlt | heq | hgt
    · exact absurd h1 (g2 i hlt)
    · rw [heq]
    · exact absurd g1 (h2 i' hgt)

/-- A sequence without first occurrence does not contain the delimiter. -/
theorem first_delim_none_iff (data : List Nat) :
    first_delim data = none ↔ ¬ QUERY_DELIM <:+: data := by
  constructor
  · intro h ⟨s, t, hst⟩
    apply first_delim_none data h s.length
    refine ⟨t, ?_⟩
    rw [← hst, List.append_assoc, List.drop_left]
  · intro h
    cases hf : first_delim data with
    | none => rfl
    | some i =>
      exfalso
      apply h
      obtain ⟨⟨t, ht⟩, -⟩ := first_delim_some data i hf
      refine ⟨data.take i, t, ?_⟩
      rw [List.append_assoc, ht, List.take_append_drop]

/-- A delimiter that ends after `k` bytes starts 13 bytes earlier. -/
theorem suffix_take_prefix_drop (data : List Nat) (k : Nat) (hk : k ≤ data.length)
    (h : QUERY_DELIM <:+ data.take k) : 13 ≤ k ∧ QUERY_DELIM <+: data.drop (k - 13) := by
  have hl := h.length_le
  simp only [QUERY_DELIM_length, List.length_take] at hl
  have h13 : 13 ≤ k := by omega
  refine ⟨h13, ?_⟩
  rw [List.suffix_iff_eq_drop] at h
  simp only [QUERY_DELIM_length, List.length_take, Nat.min_eq_left hk] at h
  refine ⟨data.drop k, ?_⟩
  rw [h]
  have : data.drop (k - 13) = (data.take k ++ data.drop k).drop (k - 13) := by
    rw [List.take_append_drop]
  rw [this, List.drop_append_of_le_length (by simp; omega)]

/-- A delimiter that starts at offset `i` ends 13 bytes later. -/
theorem prefix_drop_suffix_take (data : List Nat) (i : Nat) (h : QUERY_DELIM <+: data.drop i) :
    i + 13 ≤ data.length ∧ data.take (i + 13) = data.take i ++ QUERY_DELIM := by
  have hl := h.length_le
  simp only [QUERY_DELIM_length, List.length_drop] at hl
  obtain ⟨t, ht⟩ := h
  have hd : data = data.take i ++ (QUERY_DELIM ++ t) := by
    rw [ht, List.take_append_drop]
  refine ⟨by omega, ?_⟩
  conv_lhs => rw [hd]
  rw [List.take_append_eq_append_take]
  simp only [List.length_take]
  have h1 : min i data.length = i := by omega
  rw [h1, List.take_of_length_le (by simp)]
  have h2 : i + 13 - i = QUERY_DELIM.length := by simp [QUERY_DELIM_length]
  rw [h2]
  simp

/-- A fresh matcher fed the bytes up to the end of the first delimiter reports the match
at the last byte. -/
theorem sbmh_feed_first_delim (data : List Nat) (i : Nat) (h : first_delim data = some i) :
    sbmh_feed QUERY_DELIM ⟨false, []⟩ (data.take (i + 13)) = (i + 13, ⟨true, []⟩) := by
  obtain ⟨h1, h2⟩ := first_delim_some data i h
  obtain ⟨hlen, htake⟩ := prefix_drop_suffix_take data i h1
  have hl : (data.take (i + 13)).length = i + 13 := by simp [hlen]
  have := sbmh_feed_match QUERY_DELIM (by simp [QUERY_DELIM_length]) (data.take (i + 13)) []
    (by
      intro h0
      rw [h0] at hl
      simp at hl)
    (by
      intro k hk1 hk2 hs
      rw [hl] at hk2
      simp only [List.nil_append, List.take_take, Nat.min_eq_left (Nat.le_of_lt hk2)] at hs
      obtain ⟨g1, g2⟩ := suffix_take_prefix_drop data k (by omega) hs
      exact h2 (k - 13) (by omega) g2)
    (by
      rw [List.nil_append, htake]
      exact List.suffix_append _ _)
  rw [lastN_nil, hl] at this
  exact this

/-- A fresh matcher fed bytes that do not contain the delimiter consumes them all. -/
theorem sbmh_feed_no_delim (data : List Nat) (h : first_delim data = none) :
    sbmh_feed QUERY_DELIM ⟨false, []⟩ data =
      (data.length, ⟨false, lastN (QUERY_DELIM.length - 1) data⟩) := by
  have := sbmh_feed_no_match QUERY_DELIM (by simp [QUERY_DELIM_length]) data []
    (by
      intro k _ hk2 hs
      rw [List.nil_append] at hs
      obtain ⟨-, g2⟩ := suffix_take_prefix_drop data k hk2 hs
      exact first_delim_none data h _ g2)
  rw [lastN_nil, List.nil_append] at this
  exact this

/-- The scan of one span that ends in a match. -/
theorem scan_of_match (N : Int) (lb : List Nat) (c : Int) (data : List Nat) (hne : data ≠ [])
    (h : sbmh_feed QUERY_DELIM ⟨false, lb⟩ data = (data.length, ⟨true, []⟩)) :
    scan N lb c data = ⟨if c = 0 then data else [], Int.tmod (c + 1) N, ⟨false, []⟩⟩ := by
  cases data with
  | nil => exact absurd rfl hne
  | cons b bs =>
    rw [scan_span, h]
    simp [scan, Kept.prepend]

/-- The scan of bytes among which no match completes. -/
theorem scan_of_no_match (N : Int) (lb : List Nat) (c : Int) (data lb' : List Nat)
    (h : sbmh_feed QUERY_DELIM ⟨false, lb⟩ data = (data.length, ⟨false, lb'⟩)) :
    scan N lb c data = ⟨if c = 0 then data else [], c, ⟨false, lb'⟩⟩ := by
  cases data with
  | nil =>
    simp only [sbmh_feed, List.length_nil, Prod.mk.injEq, true_and, StreamBMH.mk.injEq] at h
    simp [scan, h]
  | cons b bs =>
    rw [scan_span, h]
    simp [scan, Kept.prepend]

/-- From a fresh context, the bytes up to the end of the first delimiter are one span:
kept or dropped together, after which the counter advances. -/
theorem scan_first_delim (N : Int) (c : Int) (data : List Nat) (i : Nat)
    (h : first_delim data = some i) :
    scan N [] c data =
      Kept.prepend (if c = 0 then data.take (i + 13) else [])
        (scan N [] (Int.tmod (c + 1) N) (data.drop (i + 13))) := by
  have hf := sbmh_feed_first_delim data i h
  obtain ⟨h1, -⟩ := first_delim_some data i h
  obtain ⟨hlen, -⟩ := prefix_drop_suffix_take data i h1
  have hl : (data.take (i + 13)).length = i + 13 := by simp [hlen]
  have hne : data.take (i + 13) ≠ [] := by
    intro h0
    rw [h0] at hl
    simp at hl
  have hs := scan_of_match N [] c _ hne (by rw [hl]; exact hf)
  conv_lhs => rw [← List.take_append_drop (i + 13) data]
  rw [scan_append, hs]

/-- From a fresh context, bytes that do not contain the delimiter are one span that ends
without a match. -/
theorem scan_no_delim (N : Int) (c : Int) (data : List Nat) (h : first_delim data = none) :
    scan N [] c data =
      ⟨if c = 0 then data else [], c, ⟨false, lastN (QUERY_DELIM.length - 1) data⟩⟩ :=
  scan_of_no_match N [] c data _ (sbmh_feed_no_delim data h)

/-- The delimiter has no border: no proper suffix of it is a prefix of it. -/
theorem QUERY_DELIM_unbordered (m : Nat) (h1 : 1 ≤ m) (h2 : m ≤ 12) :
    QUERY_DELIM.drop m ≠ QUERY_DELIM.take (13 - m) := by
  interval_cases m <;> decide

/-- After content without delimiter, the delimiter that follows is the first occurrence. -/
theorem first_delim_content (x rest : List Nat) (hx : ¬ QUERY_DELIM <:+: x) :
    first_delim (x ++ (QUERY_DELIM ++ rest)) = some x.length := by
  apply first_delim_eq
  · rw [List.drop_left]
    exact List.prefix_append _ _
  · intro j hj hp
    rw [List.drop_append_of_le_length (Nat.le_of_lt hj)] at hp
    have hy : (x.drop j).length = x.length - j := by simp
    by_cases hm : 13 ≤ x.length - j
    · apply hx
      have h1 : QUERY_DELIM <+: x.drop j :=
        List.prefix_of_prefix_length_le hp (List.prefix_append _ _)
          (by rw [QUERY_DELIM_length, hy]; exact hm)
      exact h1.isInfix.trans (List.drop_suffix j x).isInfix
    · have h1 : x.drop j <+: QUERY_DELIM :=
        List.prefix_of_prefix_length_le (List.prefix_append _ _) hp
          (by rw [QUERY_DELIM_length, hy]; omega)
      obtain ⟨t, ht⟩ := h1
      have htl : t.length = 13 - (x.length - j) := by
        have := congrArg List.length ht
        simp only [List.length_append, hy, QUERY_DELIM_length] at this
        omega
      have hdrop : QUERY_DELIM.drop (x.length - j) = t := by
        rw [← ht, ← hy, List.drop_left]
      obtain ⟨t', ht'⟩ := hp
      rw [← ht, List.append_assoc, List.append_assoc] at ht'
      have h3 := List.append_cancel_left ht'
      have h4 : t <+: x.drop j ++ t ++ rest := ⟨t', by rw [h3, List.append_assoc]⟩
      rw [ht] at h4
      have h5 : t <+: QUERY_DELIM :=
        List.prefix_of_prefix_length_le h4 (List.prefix_append _ _)
          (by rw [QUERY_DELIM_length, htl]; omega)
      rw [List.prefix_iff_eq_take, htl] at h5
      exact QUERY_DELIM_unbordered (x.length - j) (by omega) (by omega) (hdrop.trans h5)

/-! ## The rate limiter on whole records -/

theorem records_cons (y : List Nat) (ys : List (List Nat)) :
    records (y :: ys) = QUERY_DELIM ++ (y ++ records ys) := by
  simp [records]

/-- The counter after a confirmed match, as a natural number. -/
theorem counter_step (N i : Nat) (hN : 1 ≤ N) :
    Int.tmod (((i % N : Nat) : Int) + 1) (N : Int) = (((i + 1) % N : Nat) : Int) := by
  have h1 : (((i % N : Nat) : Int) + 1) = ((i % N + 1 : Nat) : Int) := by push_cast; ring
  rw [h1, Int.tmod_eq_emod (by positivity) (by positivity)]
  norm_cast
  rw [Nat.mod_add_mod]

/-- The test `*rate_limit_counter == 0` on a counter that is a natural number. -/
theorem if_cast_zero (n : Nat) (a b : List Nat) :
    (if ((n : Nat) : Int) = 0 then a else b) = if n = 0 then a else b := by
  by_cases h : n = 0 <;> simp [h]

/-- The scan of content followed by complete records, from a fresh context. -/
theorem scan_records (N : Nat) (hN : 1 ≤ N) (ys : List (List Nat)) :
    ∀ (i : Nat) (x : List Nat), ¬ QUERY_DELIM <:+: x → (∀ y ∈ ys, ¬ QUERY_DELIM <:+: y) →
    (scan N [] ((i % N : Nat) : Int) (x ++ records ys)).retained =
        (if i % N = 0 then x else []) ++ kept_after N i ys ∧
    (scan N [] ((i % N : Nat) : Int) (x ++ records ys)).rate_limit_counter =
        (((i + ys.length) % N : Nat) : Int) := by
  induction ys with
  | nil =>
    intro i x hx _
    have hnone := (first_delim_none_iff x).mpr hx
    simp only [records, List.map_nil, List.flatten_nil, List.append_nil]
    rw [scan_no_delim N _ x hnone]
    simp only [kept_after, List.append_nil, List.length_nil, Nat.add_zero, if_cast_zero]
    exact ⟨trivial, trivial⟩
  | cons y ys ih =>
    intro i x hx hys
    have hfirst := first_delim_content x (y ++ records ys) hx
    rw [records_cons, scan_first_delim N _ _ _ hfirst, counter_step N i hN]
    have htake : (x ++ (QUERY_DELIM ++ (y ++ records ys))).take (x.length + 13) =
        x ++ QUERY_DELIM := by
      rw [← List.append_assoc, ← QUERY_DELIM_length, ← List.length_append, List.take_left]
    have hdrop : (x ++ (QUERY_DELIM ++ (y ++ records ys))).drop (x.length + 13) =
        y ++ records ys := by
      rw [← List.append_assoc, ← QUERY_DELIM_length, ← List.length_append, List.drop_left]
    rw [htake, hdrop]
    obtain ⟨h1, h2⟩ := ih (i + 1) y (hys y (List.mem_cons_self _ _))
      (fun z hz => hys z (List.mem_cons_of_mem _ hz))
    simp only [Kept.prepend_retained, Kept.prepend_counter, h1, h2, if_cast_zero]
    constructor
    · rw [kept_after]
      by_cases h0 : i % N = 0
      · simp [h0]
      · simp [h0]
    · congr 2
      simp only [List.length_cons]
      omega

/-- Moving each kept delimiter to the content kept after it. -/
theorem kept_after_regroup (N : Nat) (ys : List (List Nat)) : ∀ i : Nat,
    (if i % N = 0 then [] else QUERY_DELIM) ++ kept_after N i ys =
      (kept_records N i ys).flatten ++ (if (i + ys.length) % N = 0 then [] else QUERY_DELIM) := by
  induction ys with
  | nil => intro i; simp [kept_after, kept_records]
  | cons y ys ih =>
    intro i
    have hi := ih (i + 1)
    have hlen : (i + (y :: ys).length) = (i + 1 + ys.length) := by
      simp only [List.length_cons]; omega
    rw [hlen, kept_after]
    have hk : kept_records N i (y :: ys) =
        (if (i + 1) % N = 0 then [QUERY_DELIM ++ y] else []) ++ kept_records N (i + 1) ys := by
      simp only [kept_records, List.enumFrom_cons, List.filter_cons]
      by_cases h1 : (i + 1) % N = 0 <;> simp [h1]
    rw [hk]
    by_cases h0 : i % N = 0 <;> by_cases h1 : (i + 1) % N = 0
    · simp only [h0, h1, if_true, if_false] at hi ⊢
      simp only [List.nil_append] at hi
      simp [hi]
    · simp only [h0, h1, if_true, if_false] at hi ⊢
      simp only [List.nil_append, List.append_nil, List.flatten_nil] at hi ⊢
      simpa using hi
    · simp only [h0, h1, if_true, if_false] at hi ⊢
      simp only [List.nil_append] at hi
      simp [hi]
    · simp only [h0, h1, if_true, if_false] at hi ⊢
      simp only [List.nil_append, List.append_nil] at hi ⊢
      simpa using hi

/-- The kept records by position: for `k < M / N` the record at position
`(k + 1) * N - 1`. -/
theorem kept_records_positions (N : Nat) (hN : 1 ≤ N) (contents : List (List Nat)) :
    kept_records N 0 contents =
      (List.range (contents.length / N)).map
        (fun k => QUERY_DELIM ++ contents.getD ((k + 1) * N - 1) []) := by
  induction contents using List.reverseRecOn with
  | nil => simp [kept_records]
  | append_singleton xs y ih =>
    have hf : kept_records N 0 (xs ++ [y]) =
        kept_records N 0 xs ++ (if (xs.length + 1) % N = 0 then [QUERY_DELIM ++ y] else []) := by
      simp only [kept_records, List.enumFrom_append, List.filter_append, List.map_append,
        Nat.zero_add, List.enumFrom_singleton]
      by_cases h : (xs.length + 1) % N = 0 <;> simp [h]
    have hsucc := Nat.succ_div xs.length N
    have hidx : ∀ k, k < xs.length / N → (k + 1) * N - 1 < xs.length := by
      intro k hk
      have h1 : (k + 1) * N ≤ xs.length / N * N := Nat.mul_le_mul_right N hk
      have h2 : xs.length / N * N ≤ xs.length := Nat.div_mul_le_self _ _
      have h3 : 1 ≤ (k + 1) * N := Nat.mul_pos (Nat.succ_pos k) hN
      omega
    have hmap : List.map (fun k => QUERY_DELIM ++ (xs ++ [y]).getD ((k + 1) * N - 1) [])
          (List.range (xs.length / N)) =
        List.map (fun k => QUERY_DELIM ++ xs.getD ((k + 1) * N - 1) [])
          (List.range (xs.length / N)) := by
      apply List.map_congr_left
      intro k hk
      rw [List.mem_range] at hk
      rw [List.getD_append _ _ _ _ (hidx k hk)]
    rw [hf, ih, List.length_append, List.length_singleton]
    by_cases h : (xs.length + 1) % N = 0
    · have hd : N ∣ xs.length + 1 := Nat.dvd_of_mod_eq_zero h
      simp only [Nat.succ_eq_add_one, hd, if_true] at hsucc
      have hlast : (xs.length / N + 1) * N - 1 = xs.length := by
        have := Nat.div_mul_cancel hd
        rw [hsucc] at this
        omega
      simp only [h, if_true]
      rw [hsucc, List.range_succ, List.map_append, hmap, List.map_singleton, hlast,
        List.getD_append_right _ _ _ _ (le_refl _)]
      simp
    · have hd : ¬ N ∣ xs.length + 1 := fun hd => h (Nat.mod_eq_zero_of_dvd hd)
      simp only [Nat.succ_eq_add_one, hd, if_false, Nat.add_zero] at hsucc
      simp only [h, if_false, List.append_nil]
      rw [hsucc, hmap]

/-- Once the loop has left through its condition, more iterations allowed change
nothing. -/
theorem apply_rate_limit_loop_stable (len : Nat) (N : Int) : ∀ (fuel : Nat) (s : RateLimitLoop)
    (k : Nat), len ≤ (apply_rate_limit_loop len N fuel s).next →
    apply_rate_limit_loop len N (fuel + k) s = apply_rate_limit_loop len N fuel s := by
  intro fuel
  induction fuel with
  | zero =>
    intro s k h
    simp only [apply_rate_limit_loop] at h
    cases k with
    | zero => rfl
    | succ k =>
      rw [Nat.zero_add, apply_rate_limit_loop, apply_rate_limit_loop]
      simp [Nat.not_lt.mpr h]
  | succ fuel ih =>
    intro s k h
    have hk : fuel + 1 + k = (fuel + k) + 1 := by omega
    rw [hk, apply_rate_limit_loop, apply_rate_limit_loop]
    rw [apply_rate_limit_loop] at h
    by_cases hlt : s.next < len
    · simp only [hlt, if_true] at h ⊢
      exact ih _ k h
    · simp only [hlt, if_false]

/-- The kept spans do not depend on the bound, once it exceeds the length of the
input. -/
theorem kept_spans_stable (N : Int) (fuel : Nat) (ctx : StreamBMH) (c : Int) (data : List Nat)
    (h : data.length + 1 ≤ fuel) :
    kept_spans N fuel ctx c data = kept_spans N (data.length + 1) ctx c data := by
  obtain ⟨f, rfl⟩ : ∃ f, fuel = f + 1 := ⟨fuel - 1, by omega⟩
  cases data with
  | nil => simp [kept_spans]
  | cons b bs =>
    by_cases hf : ctx.found = true
    · rw [kept_spans_of_found N f ctx c b bs hf, kept_spans_of_found N _ ctx c b bs hf,
        kept_spans_eq_scan N f [] _ _ (by omega), kept_spans_eq_scan N _ [] _ _ (le_refl _)]
    · have hf' : ctx.found = false := by rw [← Bool.not_eq_true]; exact hf
      rw [StreamBMH.eq_of_not_found ctx hf', kept_spans_eq_scan N _ _ _ _ (by omega),
        kept_spans_eq_scan N _ _ _ _ (by omega)]

/-- The example of the comment in `apply_rate_limit` (lines 98-115), with the real
delimiter: with `rate_limit` 2 and the counter at 0, `query2` is cut out and `query3`
moves down. -/
theorem apply_rate_limit_comment_example :
    (apply_rate_limit sbmh_init (bytes "query1\n# User@Host: query2\n# User@Host: query3") 47 2
        0).retained = bytes "query1\n# User@Host: query3" := by
  decide

/-! ## The claims about the rate limiter -/

/-- C1, as amended: for every `N ≥ 1` and every buffer of `M` complete records, each the
delimiter followed by content without delimiter, `apply_rate_limit` with the counter at 0
and a fresh matcher leaves exactly the records at the positions `N - 1`, `2 N - 1`, ...
(the record at position `(k + 1) N - 1` for each `k < M / N`), in their order and each
with its delimiter, followed by one more delimiter when `N` does not divide `M`; the
counter ends at `M mod N`. -/
theorem rate_limit_periodicity (N : Nat) (hN : 1 ≤ N) (contents : List (List Nat))
    (hc : ∀ c ∈ contents, ¬ QUERY_DELIM <:+: c) :
    (apply_rate_limit sbmh_init (records contents) (records contents).length N 0).retained =
        ((List.range (contents.length / N)).map
            (fun k => QUERY_DELIM ++ contents.getD ((k + 1) * N - 1) [])).flatten ++
          (if contents.length % N = 0 then [] else QUERY_DELIM) ∧
    (apply_rate_limit sbmh_init (records contents) (records contents).length N
        0).rate_limit_counter = ((contents.length % N : Nat) : Int) := by
  obtain ⟨h1, -, h2, -⟩ := apply_rate_limit_eq_scan [] (records contents) N 0
  have h0 : ((0 % N : Nat) : Int) = 0 := by simp
  obtain ⟨g1, g2⟩ := scan_records N hN contents 0 [] (by
    intro h
    have := h.length_le
    simp [QUERY_DELIM_length] at this) hc
  rw [h0, List.nil_append] at g1 g2
  have hr := kept_after_regroup N contents 0
  simp only [Nat.zero_mod, if_true, List.nil_append, Nat.zero_add] at hr g1 g2
  refine ⟨?_, ?_⟩
  · show (apply_rate_limit ⟨false, []⟩ _ _ _ _).retained = _
    rw [h1, g1, hr, kept_records_positions N hN contents]
  · show (apply_rate_limit ⟨false, []⟩ _ _ _ _).rate_limit_counter = _
    rw [h2, g2]

/-- C1, witness: two records and `N = 2`; the second record is the one left. -/
theorem rate_limit_periodicity_witness :
    (apply_rate_limit sbmh_init (records [bytes "a\nQ1\n", bytes "b\nQ2\n"])
        (records [bytes "a\nQ1\n", bytes "b\nQ2\n"]).length (2 : Nat) 0).retained =
      bytes "# User@Host: b\nQ2\n" :=
  (rate_limit_periodicity 2 (by decide) [bytes "a\nQ1\n", bytes "b\nQ2\n"]
    (by decide)).1.trans (by decide)

/-- C1 as stated fails: on the two records `"# User@Host: a\nQ1\n# User@Host: b\nQ2\n"`
with `N = 2` and the counter at 0 the buffer is left with the record at position 1, not
with the record at position 0. -/
theorem rate_limit_periodicity_counterexample :
    bytes "# User@Host: a\nQ1\n# User@Host: b\nQ2\n" =
        records [bytes "a\nQ1\n", bytes "b\nQ2\n"] ∧
    (apply_rate_limit sbmh_init (bytes "# User@Host: a\nQ1\n# User@Host: b\nQ2\n") 36 2
        0).retained = bytes "# User@Host: b\nQ2\n" ∧
    (apply_rate_limit sbmh_init (bytes "# User@Host: a\nQ1\n# User@Host: b\nQ2\n") 36 2
        0).retained ≠ bytes "# User@Host: a\nQ1\n" := by
  decide

/-- C2: for every `N ≥ 1`, with the counter at -1 and a fresh matcher, on a buffer whose
first delimiter starts at offset `i`: the first iteration of the loop moves `next` to the
end of that delimiter, keeps nothing, sets the counter to 0 and resets the matcher; every
byte up to the end of that delimiter is dropped and the run continues as one with the
counter at 0 on the bytes after it, so the output starts with the bytes that follow the
delimiter, up to the next delimiter or to the end of the buffer.  On a buffer without
delimiter the returned length is 0 and the counter is still -1. -/
theorem leading_partial_record_suppression (N : Int) (hN : 1 ≤ N) (buf : List Nat) :
    (∀ i, first_delim buf = some i →
      apply_rate_limit_body buf.length N ⟨buf, 0, 0, -1, sbmh_init⟩ =
          ⟨buf, 0, i + 13, 0, sbmh_init⟩ ∧
      (apply_rate_limit sbmh_init buf buf.length N (-1)).retained =
          (apply_rate_limit sbmh_init (buf.drop (i + 13)) (buf.drop (i + 13)).length N
            0).retained ∧
      (apply_rate_limit sbmh_init buf buf.length N (-1)).rate_limit_counter =
          (apply_rate_limit sbmh_init (buf.drop (i + 13)) (buf.drop (i + 13)).length N
            0).rate_limit_counter ∧
      (∀ j, first_delim (buf.drop (i + 13)) = some j →
        (buf.drop (i + 13)).take j <+:
            (apply_rate_limit sbmh_init buf buf.length N (-1)).retained ∧
        (buf.drop (i + 13)).take (j + 13) <+:
            (apply_rate_limit sbmh_init buf buf.length N (-1)).retained) ∧
      (first_delim (buf.drop (i + 13)) = none →
        (apply_rate_limit sbmh_init buf buf.length N (-1)).retained = buf.drop (i + 13))) ∧
    (¬ QUERY_DELIM <:+: buf →
      (apply_rate_limit sbmh_init buf buf.length N (-1)).len = 0 ∧
      (apply_rate_limit sbmh_init buf buf.length N (-1)).rate_limit_counter = -1) := by
  have _ := hN
  obtain ⟨h1, h2, h3, -⟩ := apply_rate_limit_eq_scan [] buf N (-1)
  constructor
  · intro i hi
    obtain ⟨g1, -, g3, -⟩ := apply_rate_limit_eq_scan [] (buf.drop (i + 13)) N 0
    have hs := scan_first_delim N (-1) buf i hi
    have hz : Int.tmod (-1 + 1) N = 0 := by simp
    rw [hz] at hs
    have hret : (apply_rate_limit sbmh_init buf buf.length N (-1)).retained =
        (scan N [] 0 (buf.drop (i + 13))).retained := by
      show (apply_rate_limit ⟨false, []⟩ _ _ _ _).retained = _
      rw [h1, hs]
      simp
    refine ⟨?_, ?_, ?_, ?_, ?_⟩
    · have hfeed := sbmh_feed_first_delim buf i hi
      have hwhole : sbmh_feed QUERY_DELIM ⟨false, []⟩ buf = (i + 13, ⟨true, []⟩) := by
        have := sbmh_feed_append_found QUERY_DELIM (buf.take (i + 13)) (buf.drop (i + 13))
          ⟨false, []⟩ (by rw [hfeed])
        rw [List.take_append_drop, hfeed] at this
        exact this
      simp [apply_rate_limit_body, sbmh_init, hwhole, sbmh_reset]
    · rw [hret]
      exact g1.symm
    · show (apply_rate_limit ⟨false, []⟩ _ _ _ _).rate_limit_counter =
        (apply_rate_limit ⟨false, []⟩ _ _ _ _).rate_limit_counter
      rw [h3, g3, hs]
      simp
    · intro j hj
      rw [hret, scan_first_delim N 0 _ j hj]
      simp only [if_true, Kept.prepend_retained]
      constructor
      · exact (List.take_prefix_take_left _ (Nat.le_add_right j 13)).trans
          (List.prefix_append _ _)
      · exact List.prefix_append _ _
    · intro hnone
      rw [hret, scan_no_delim N 0 _ hnone]
      simp
  · intro hno
    have hnone := (first_delim_none_iff buf).mpr hno
    have hs := scan_no_delim N (-1) buf hnone
    constructor
    · show (apply_rate_limit ⟨false, []⟩ _ _ _ _).len = _
      rw [h2, hs]
      simp
    · show (apply_rate_limit ⟨false, []⟩ _ _ _ _).rate_limit_counter = _
      rw [h3, hs]

/-- C2, witness: a partial record, a delimiter and the start of a record, with `N = 2`. -/
theorem leading_partial_record_suppression_witness :
    (apply_rate_limit sbmh_init (bytes "Q0\n# User@Host: a\nQ1") 21 2 (-1)).retained =
      bytes "a\nQ1" :=
  ((leading_partial_record_suppression 2 (by decide) (bytes "Q0\n# User@Host: a\nQ1")).1 3
    (by decide)).2.2.2.2 (by decide)

/-- C3: for every buffer, every length `len` of valid bytes in it, every `N ≥ 1`, every
counter in `{-1} ∪ [0, N-1]` and every matcher state, the loop of `apply_rate_limit` ends
through its condition, the returned length is at most `len`, the first bytes of the
buffer, as many as the returned length, are the concatenation in order of the spans of
the original bytes that were scanned while the counter was 0, these bytes are a
subsequence of the original bytes, and the bytes from `len` on are not touched.  Neither
the loop nor the spans change when more iterations are allowed. -/
theorem apply_rate_limit_order_preserving_filter (ctx : StreamBMH) (buf : List Nat) (len : Nat)
    (N c : Int) (hlen : len ≤ buf.length) (hN : 1 ≤ N) (hc : c = -1 ∨ (0 ≤ c ∧ c < N)) :
    (apply_rate_limit_loop len N (len + 1) ⟨buf, 0, 0, c, ctx⟩).next = len ∧
    (apply_rate_limit ctx buf len N c).len ≤ len ∧
    (apply_rate_limit ctx buf len N c).buf.take (apply_rate_limit ctx buf len N c).len =
      (kept_spans N (len + 1) ctx c (buf.take len)).retained ∧
    List.Sublist ((apply_rate_limit ctx buf len N c).buf.take
      (apply_rate_limit ctx buf len N c).len) (buf.take len) ∧
    (apply_rate_limit ctx buf len N c).buf.drop len = buf.drop len ∧
    (∀ k, apply_rate_limit_loop len N (len + 1 + k) ⟨buf, 0, 0, c, ctx⟩ =
      apply_rate_limit_loop len N (len + 1) ⟨buf, 0, 0, c, ctx⟩) ∧
    (∀ fuel, len + 1 ≤ fuel →
      kept_spans N fuel ctx c (buf.take len) = kept_spans N (len + 1) ctx c (buf.take len)) := by
  have _ := hN
  have _ := hc
  obtain ⟨h1, h2, -, h4, -, -, h7⟩ := apply_rate_limit_spec ctx buf len N c hlen
  have hl : (buf.take len).length = len := by simp [hlen]
  refine ⟨h1, h4, h2, ?_, h7, ?_, ?_⟩
  · have : (apply_rate_limit ctx buf len N c).buf.take (apply_rate_limit ctx buf len N c).len =
        (apply_rate_limit ctx buf len N c).retained := rfl
    rw [this, h2]
    exact kept_spans_sublist N _ ctx c _
  · intro k
    exact apply_rate_limit_loop_stable len N (len + 1) _ k (by rw [h1])
  · intro fuel hfuel
    have := kept_spans_stable N fuel ctx c (buf.take len) (by rw [hl]; exact hfuel)
    rw [hl] at this
    exact this

/-- C3, witness: three spans with `N = 2`; the second span is cut out and the third moves
down. -/
theorem apply_rate_limit_order_preserving_filter_witness :
    (apply_rate_limit sbmh_init (bytes "a# User@Host: b# User@Host: c") 29 2 0).buf.take
        (apply_rate_limit sbmh_init (bytes "a# User@Host: b# User@Host: c") 29 2 0).len =
      bytes "a# User@Host: c" :=
  (apply_rate_limit_order_preserving_filter sbmh_init (bytes "a# User@Host: b# User@Host: c")
    29 2 0 (by decide) (by decide) (by decide)).2.2.1.trans (by decide)

/-- C4: for every split of a byte sequence into `a ++ b`, every `N ≥ 1`, every counter in
`{-1} ∪ [0, N-1]` and every matcher state, `apply_rate_limit` on `a` and then on `b`, with
the counter and the matcher state carried over, retains bytes whose concatenation is what
one call on `a ++ b` retains, and ends with the same counter and the same matcher
state. -/
theorem chunk_boundary_continuity (ctx : StreamBMH) (a b : List Nat) (N c : Int) (hN : 1 ≤ N)
    (hc : c = -1 ∨ (0 ≤ c ∧ c < N)) :
    (apply_rate_limit ctx a a.length N c).retained ++
        (apply_rate_limit (apply_rate_limit ctx a a.length N c).bmh_context b b.length N
          (apply_rate_limit ctx a a.length N c).rate_limit_counter).retained =
      (apply_rate_limit ctx (a ++ b) (a ++ b).length N c).retained ∧
    (apply_rate_limit (apply_rate_limit ctx a a.length N c).bmh_context b b.length N
          (apply_rate_limit ctx a a.length N c).rate_limit_counter).rate_limit_counter =
      (apply_rate_limit ctx (a ++ b) (a ++ b).length N c).rate_limit_counter ∧
    (apply_rate_limit (apply_rate_limit ctx a a.length N c).bmh_context b b.length N
          (apply_rate_limit ctx a a.length N c).rate_limit_counter).bmh_context =
      (apply_rate_limit ctx (a ++ b) (a ++ b).length N c).bmh_context := by
  have _ := hN
  have _ := hc
  exact apply_rate_limit_chunks ctx a b N c

/-- C4, witness: a delimiter split between two chunks, `N = 2`, counter at -1. -/
theorem chunk_boundary_continuity_witness :
    (apply_rate_limit sbmh_init (bytes "Q0\n# User") 9 2 (-1)).retained ++
        (apply_rate_limit (apply_rate_limit sbmh_init (bytes "Q0\n# User") 9 2 (-1)).bmh_context
          (bytes "@Host: a\nQ1") 12 2
          (apply_rate_limit sbmh_init (bytes "Q0\n# User") 9 2 (-1)).rate_limit_counter).retained =
      bytes "a\nQ1" :=
  (chunk_boundary_continuity sbmh_init (bytes "Q0\n# User") (bytes "@Host: a\nQ1") 2 (-1)
    (by decide) (by decide)).1.trans (by decide)

/-! ## The claims about the reader and the request handler -/

/-- C10, as amended: for every tailed file in the START state and every buffer size `max`,
`tailed_file_content_reader` returns the error signal exactly when `max ≤ 13`, and then
changes nothing; for every `max ≥ 14` it makes no system call, writes the 13 delimiter
bytes at the start of the buffer and nothing else, returns 13, sets the counter to -1 and
moves to DUMP. -/
theorem start_step (sys : Sys) (tf : tailed_file) (offset : Nat) (buf : List Nat) (max : Nat)
    (hstate : tf.state = TAILED_FILE_STATE_START) :
    ((tailed_file_content_reader sys tf offset buf max).ret = MHD_CONTENT_READER_END_WITH_ERROR ↔
      max ≤ 13) ∧
    (max ≤ 13 →
      tailed_file_content_reader sys tf offset buf max =
        ⟨MHD_CONTENT_READER_END_WITH_ERROR, tf, buf, offset, []⟩) ∧
    (14 ≤ max →
      tailed_file_content_reader sys tf offset buf max =
        ⟨13, { tf with state := TAILED_FILE_STATE_DUMP, rate_limit_counter := -1 },
          QUERY_DELIM ++ buf.drop 13, offset, []⟩) := by
  have hnw : ¬ tf.state = TAILED_FILE_STATE_WAIT := by rw [hstate]; decide
  have hnd : ¬ tf.state = TAILED_FILE_STATE_DUMP := by rw [hstate]; decide
  by_cases hmax : max ≤ 13
  · have hr : tailed_file_content_reader sys tf offset buf max =
        ⟨MHD_CONTENT_READER_END_WITH_ERROR, tf, buf, offset, []⟩ := by
      simp [tailed_file_content_reader, start_block, hnw, hnd, hstate, QUERY_DELIM_LEN, hmax]
    refine ⟨?_, fun _ => hr, fun h => absurd hmax (by omega)⟩
    rw [hr]
    exact ⟨fun _ => hmax, fun _ => rfl⟩
  · have hmax' : ¬ 13 ≥ max := by omega
    have hr : tailed_file_content_reader sys tf offset buf max =
        ⟨13, { tf with state := TAILED_FILE_STATE_DUMP, rate_limit_counter := -1 },
          QUERY_DELIM ++ buf.drop 13, offset, []⟩ := by
      simp [tailed_file_content_reader, start_block, hnw, hnd, hstate, QUERY_DELIM_LEN, hmax']
    refine ⟨?_, fun h => absurd h hmax, fun _ => hr⟩
    rw [hr]
    constructor
    · intro h
      simp [MHD_CONTENT_READER_END_WITH_ERROR] at h
    · intro h
      exact absurd h hmax

/-- C10, witness: a buffer of 4096 bytes. -/
theorem start_step_witness :
    tailed_file_content_reader ⟨none, none, -1, none⟩
        (sample_tailed_file TAILED_FILE_STATE_START 0) 0 (List.replicate 4096 0) 4096 =
      ⟨13, { sample_tailed_file TAILED_FILE_STATE_START 0 with
              state := TAILED_FILE_STATE_DUMP, rate_limit_counter := -1 },
        QUERY_DELIM ++ (List.replicate 4096 0).drop 13, 0, []⟩ :=
  (start_step ⟨none, none, -1, none⟩ (sample_tailed_file TAILED_FILE_STATE_START 0) 0
    (List.replicate 4096 0) 4096 rfl).2.2 (by decide)

/-- C10 as stated fails: with a buffer of exactly 13 bytes, which is not smaller than the
delimiter, the reader returns the error signal and not 13. -/
theorem start_step_counterexample :
    ¬ ((13 : Nat) < QUERY_DELIM_LEN) ∧
    (tailed_file_content_reader ⟨none, none, -1, none⟩
        (sample_tailed_file TAILED_FILE_STATE_START 0) 0 (List.replicate 13 0) 13).ret =
      MHD_CONTENT_READER_END_WITH_ERROR ∧
    (tailed_file_content_reader ⟨none, none, -1, none⟩
        (sample_tailed_file TAILED_FILE_STATE_START 0) 0 (List.replicate 13 0) 13).ret ≠ 13 := by
  decide

/-- The read of the DUMP block follows the system calls made before it, on the current
descriptor and at the current offset. -/
theorem dump_block_calls (sys : Sys) (t : Tailing) (buf : List Nat) (max : Nat) :
    (dump_block sys t buf max).calls = t.calls ++ [Syscall.read t.tf.fd max t.offset] := by
  unfold dump_block
  simp only
  split
  · rfl
  · split
    · rfl
    · split <;> rfl

/-- A call of the reader on a tailed file in the WAIT state: the WAIT block, then the DUMP
block when the state has become DUMP, and else nothing more. -/
theorem reader_of_wait (sys : Sys) (tf : tailed_file) (offset : Nat) (buf : List Nat)
    (max : Nat) (hstate : tf.state = TAILED_FILE_STATE_WAIT) :
    tailed_file_content_reader sys tf offset buf max =
      if (wait_block sys tf offset).tf.state = TAILED_FILE_STATE_DUMP then
        dump_block sys (wait_block sys tf offset) buf max
      else start_block (wait_block sys tf offset) buf max := by
  simp [tailed_file_content_reader, hstate]

/-- A poll that finds mode, modification time and size unchanged before the wait count
reaches 4: nothing but the wait count changes, and the path is not looked at. -/
theorem reader_quiet_poll (sys : Sys) (tf : tailed_file) (offset : Nat) (buf : List Nat)
    (max : Nat) (st : Stat) (hstate : tf.state = TAILED_FILE_STATE_WAIT)
    (hfstat : sys.fstat_result = some st)
    (hsame : tf.st.st_mode = st.st_mode ∧ tf.st.st_mtime = st.st_mtime ∧
      tf.st.st_size = st.st_size)
    (hw : tf.wait_count + 1 < 4) :
    tailed_file_content_reader sys tf offset buf max =
      ⟨0, { tf with wait_count := tf.wait_count + 1 }, buf, offset,
        [Syscall.usleep 250000, Syscall.fstat tf.fd]⟩ := by
  have hw' : ¬ tf.wait_count + 1 ≥ 4 := by omega
  have hwb : wait_block sys tf offset =
      ⟨{ tf with wait_count := tf.wait_count + 1 }, offset,
        [Syscall.usleep 250000, Syscall.fstat tf.fd]⟩ := by
    simp [wait_block, hfstat, hsame, hw']
  rw [reader_of_wait sys tf offset buf max hstate, hwb]
  simp [start_block, hstate]

/-- The fourth poll when the path has another device or inode and `open` succeeds: the
WAIT block closes the descriptor, opens the path, takes the stat of the path, resets the
wait count and moves to DUMP. -/
theorem wait_block_rotated (sys : Sys) (tf : tailed_file) (offset : Nat) (st st_path : Stat)
    (hfstat : sys.fstat_result = some st)
    (hsame : tf.st.st_mode = st.st_mode ∧ tf.st.st_mtime = st.st_mtime ∧
      tf.st.st_size = st.st_size)
    (hw : tf.wait_count = 3) (hfd : 0 < tf.fd) (hpath : sys.stat_result = some st_path)
    (hrot : tf.st.st_ino ≠ st_path.st_ino ∨ tf.st.st_dev ≠ st_path.st_dev)
    (hopen : 0 < sys.open_result) :
    wait_block sys tf offset =
      ⟨{ tf with st := st_path, fd := sys.open_result, state := TAILED_FILE_STATE_DUMP,
                 wait_count := 0 }, 0,
        [Syscall.usleep 250000, Syscall.fstat tf.fd, Syscall.stat tf.name,
          Syscall.close tf.fd, Syscall.open_rdonly tf.name]⟩ := by
  simp [wait_block, hfstat, hsame, hw, hpath, hrot, hfd, hopen]

/-- Polls that find nothing changed, up to the one that brings the wait count to 4. -/
theorem reader_polls_quiet (max : Nat) (last : Sys) (offset : Nat) (buf : List Nat) :
    ∀ (quiet : List Sys) (tf : tailed_file), tf.state = TAILED_FILE_STATE_WAIT →
    tf.wait_count + quiet.length < 4 →
    (∀ s ∈ quiet, ∃ st, s.fstat_result = some st ∧ tf.st.st_mode = st.st_mode ∧
      tf.st.st_mtime = st.st_mtime ∧ tf.st.st_size = st.st_size) →
    reader_polls max (quiet ++ [last]) tf offset buf =
      (List.range quiet.length).map (fun k : Nat =>
        (⟨0, { tf with wait_count := tf.wait_count + (k : Int) + 1 }, buf, offset,
          [Syscall.usleep 250000, Syscall.fstat tf.fd]⟩ : Reader)) ++
      [tailed_file_content_reader last
        { tf with wait_count := tf.wait_count + quiet.length } offset buf max] := by
  intro quiet
  induction quiet with
  | nil =>
    intro tf _ _ _
    simp [reader_polls]
  | cons s ss ih =>
    intro tf hstate hw hsame
    obtain ⟨st, h1, h2⟩ := hsame s (List.mem_cons_self _ _)
    simp only [List.length_cons, Nat.cast_add, Nat.cast_one] at hw
    have hq := reader_quiet_poll s tf offset buf max st hstate h1 h2 (by omega)
    rw [List.cons_append, reader_polls, hq]
    simp only
    rw [ih { tf with wait_count := tf.wait_count + 1 } hstate (by simp only; omega)
      (fun s' hs' => hsame s' (List.mem_cons_of_mem _ hs'))]
    rw [List.length_cons, List.range_succ_eq_map, List.map_cons, List.map_map, List.cons_append]
    have e1 : List.map (fun k : Nat =>
          (⟨0, { ({ tf with wait_count := tf.wait_count + 1 } : tailed_file) with
                  wait_count := ({ tf with wait_count := tf.wait_count + 1 } :
                    tailed_file).wait_count + (k : Int) + 1 }, buf, offset,
            [Syscall.usleep 250000,
              Syscall.fstat ({ tf with wait_count := tf.wait_count + 1 } : tailed_file).fd]⟩ :
            Reader)) (List.range ss.length) =
        List.map ((fun k : Nat =>
          (⟨0, { tf with wait_count := tf.wait_count + (k : Int) + 1 }, buf, offset,
            [Syscall.usleep 250000, Syscall.fstat tf.fd]⟩ : Reader)) ∘ Nat.succ)
          (List.range ss.length) := by
      apply List.map_congr_left
      intro k _
      simp only [Function.comp, Nat.succ_eq_add_one, Nat.cast_add, Nat.cast_one]
      have : tf.wait_count + 1 + (k : Int) + 1 = tf.wait_count + ((k : Int) + 1) + 1 := by ring
      rw [this]
    have e2 : ({ ({ tf with wait_count := tf.wait_count + 1 } : tailed_file) with
          wait_count := ({ tf with wait_count := tf.wait_count + 1 } :
            tailed_file).wait_count + (ss.length : Int) } : tailed_file) =
        { tf with wait_count := tf.wait_count + ((ss.length + 1 : Nat) : Int) } := by
      simp only [Nat.cast_add, Nat.cast_one]
      have : tf.wait_count + 1 + (ss.length : Int) = tf.wait_count + ((ss.length : Int) + 1) := by
        ring
      rw [this]
    rw [e1, e2]
    simp

/-- C8, as amended: for every tailed file in the WAIT state with an open descriptor
(`fd > 0`) and a wait count `w` in 0..3, when every poll finds, by the descriptor, mode,
modification time and size as cached, and the poll number `4 - w` finds by the path another
device or inode and its `open` returns a descriptor `> 0`: the polls `1 .. 3 - w` return 0,
change only the wait count and do not look at the path; on poll `4 - w` the reader closes
the old descriptor, opens the path, takes the stat of the path as the cached one, resets
the wait count, moves to DUMP, and the `read` of that call is on the new descriptor at
offset 0.  On a fourth poll that finds the same device and inode the wait count is reset
and the state stays WAIT. -/
theorem rotation_recovery (tf : tailed_file) (quiet : List Sys) (last : Sys) (st_path : Stat)
    (offset : Nat) (buf : List Nat) (max : Nat)
    (hstate : tf.state = TAILED_FILE_STATE_WAIT) (hw0 : 0 ≤ tf.wait_count)
    (hw3 : tf.wait_count ≤ 3) (hfd : 0 < tf.fd)
    (hquiet : (quiet.length : Int) = 3 - tf.wait_count)
    (hsame : ∀ s ∈ quiet ++ [last], ∃ st, s.fstat_result = some st ∧
      tf.st.st_mode = st.st_mode ∧ tf.st.st_mtime = st.st_mtime ∧ tf.st.st_size = st.st_size)
    (hpath : last.stat_result = some st_path)
    (hrot : tf.st.st_ino ≠ st_path.st_ino ∨ tf.st.st_dev ≠ st_path.st_dev)
    (hopen : 0 < last.open_result) :
    reader_polls max (quiet ++ [last]) tf offset buf =
        (List.range quiet.length).map (fun k : Nat =>
          (⟨0, { tf with wait_count := tf.wait_count + (k : Int) + 1 }, buf, offset,
            [Syscall.usleep 250000, Syscall.fstat tf.fd]⟩ : Reader)) ++
        [dump_block last
          ⟨{ tf with st := st_path, fd := last.open_result, state := TAILED_FILE_STATE_DUMP,
                     wait_count := 0 }, 0,
            [Syscall.usleep 250000, Syscall.fstat tf.fd, Syscall.stat tf.name,
              Syscall.close tf.fd, Syscall.open_rdonly tf.name]⟩ buf max] ∧
    wait_block last { tf with wait_count := 3 } offset =
        ⟨{ tf with st := st_path, fd := last.open_result, state := TAILED_FILE_STATE_DUMP,
                   wait_count := 0 }, 0,
          [Syscall.usleep 250000, Syscall.fstat tf.fd, Syscall.stat tf.name,
            Syscall.close tf.fd, Syscall.open_rdonly tf.name]⟩ ∧
    (dump_block last
          ⟨{ tf with st := st_path, fd := last.open_result, state := TAILED_FILE_STATE_DUMP,
                     wait_count := 0 }, 0,
            [Syscall.usleep 250000, Syscall.fstat tf.fd, Syscall.stat tf.name,
              Syscall.close tf.fd, Syscall.open_rdonly tf.name]⟩ buf max).calls =
        [Syscall.usleep 250000, Syscall.fstat tf.fd, Syscall.stat tf.name,
          Syscall.close tf.fd, Syscall.open_rdonly tf.name,
          Syscall.read last.open_result max 0] ∧
    (∀ (sys : Sys) (st p : Stat), tf.wait_count = 3 → sys.fstat_result = some st →
      tf.st.st_mode = st.st_mode → tf.st.st_mtime = st.st_mtime →
      tf.st.st_size = st.st_size → sys.stat_result = some p →
      tf.st.st_ino = p.st_ino → tf.st.st_dev = p.st_dev →
      tailed_file_content_reader sys tf offset buf max =
        ⟨0, { tf with wait_count := 0 }, buf, offset,
          [Syscall.usleep 250000, Syscall.fstat tf.fd, Syscall.stat tf.name]⟩) := by
  have _ := hw0
  have _ := hw3
  obtain ⟨st, hl1, hl2⟩ := hsame last (by simp)
  have hwb := wait_block_rotated last { tf with wait_count := 3 } offset st st_path hl1 hl2 rfl
    hfd hpath hrot hopen
  simp only at hwb
  refine ⟨?_, hwb, by simp [dump_block_calls], ?_⟩
  · rw [reader_polls_quiet max last offset buf quiet tf hstate (by omega)
      (fun s hs => hsame s (List.mem_append_left _ hs))]
    have h3 : tf.wait_count + quiet.length = 3 := by omega
    rw [h3, reader_of_wait last { tf with wait_count := 3 } offset buf max hstate, hwb]
    simp
  · intro sys st' p hw hf hm ht hs hp hi hd
    have hwb2 : wait_block sys tf offset =
        ⟨{ tf with wait_count := 0 }, offset,
          [Syscall.usleep 250000, Syscall.fstat tf.fd, Syscall.stat tf.name]⟩ := by
      simp [wait_block, hf, hm, ht, hs, hw, hp, hi, hd]
    rw [reader_of_wait _ _ _ _ _ hstate, hwb2]
    simp [start_block, hstate]

/-- C8, witness: a wait count of 2, one poll that finds nothing changed, then the poll
that finds the path on inode 8 and opens it as descriptor 6. -/
theorem rotation_recovery_witness :
    (reader_polls 16
        ([⟨some sample_stat, none, -1, none⟩] ++
          [⟨some sample_stat, some { sample_stat with st_ino := 8 }, 6, some [81, 49]⟩])
        (sample_tailed_file TAILED_FILE_STATE_WAIT 2) 100 (List.replicate 16 0)).map
        Reader.calls =
      [[Syscall.usleep 250000, Syscall.fstat 5],
       [Syscall.usleep 250000, Syscall.fstat 5, Syscall.stat "/var/log/mysql/slow.log",
        Syscall.close 5, Syscall.open_rdonly "/var/log/mysql/slow.log",
        Syscall.read 6 16 0]] := by
  have h := rotation_recovery (sample_tailed_file TAILED_FILE_STATE_WAIT 2)
    [⟨some sample_stat, none, -1, none⟩]
    ⟨some sample_stat, some { sample_stat with st_ino := 8 }, 6, some [81, 49]⟩
    { sample_stat with st_ino := 8 } 100 (List.replicate 16 0) 16 rfl (by decide) (by decide)
    (by decide) (by decide)
    (by
      intro s hs
      simp only [List.singleton_append, List.mem_cons, List.mem_singleton, List.mem_nil_iff,
        or_false] at hs
      rcases hs with rfl | rfl <;> exact ⟨sample_stat, rfl, rfl, rfl, rfl⟩)
    rfl (by decide) (by decide)
  rw [h.1]
  simp [dump_block_calls, sample_tailed_file, List.range_succ]

/-- C8 as stated fails: on the fourth poll, with the path on another inode, an `open` that
fails leaves the tailed file in the WAIT state, without descriptor and with no `read`. -/
theorem rotation_recovery_counterexample :
    (tailed_file_content_reader
        ⟨some sample_stat, some { sample_stat with st_ino := 8 }, -1, some [81, 49]⟩
        (sample_tailed_file TAILED_FILE_STATE_WAIT 3) 100 (List.replicate 16 0) 16).tf.state =
      TAILED_FILE_STATE_WAIT ∧
    (tailed_file_content_reader
        ⟨some sample_stat, some { sample_stat with st_ino := 8 }, -1, some [81, 49]⟩
        (sample_tailed_file TAILED_FILE_STATE_WAIT 3) 100 (List.replicate 16 0) 16).tf.fd = -1 ∧
    (tailed_file_content_reader
        ⟨some sample_stat, some { sample_stat with st_ino := 8 }, -1, some [81, 49]⟩
        (sample_tailed_file TAILED_FILE_STATE_WAIT 3) 100 (List.replicate 16 0) 16).calls =
      [Syscall.usleep 250000, Syscall.fstat 5, Syscall.stat "/var/log/mysql/slow.log",
        Syscall.close 5, Syscall.open_rdonly "/var/log/mysql/slow.log"] := by
  decide

/-- C5, the code at the failing input: in the DUMP state a `read` that returns -1 is not
answered with `MHD_CONTENT_READER_END_WITH_ERROR`.  With `rate_limit` 1 and the counter at
0 the reader returns `(ssize_t) SIZE_MAX`, which is `MHD_CONTENT_READER_END_OF_STREAM`; with
`rate_limit` 2 it runs the rate limiter with `SIZE_MAX` as the length of the buffer. -/
theorem read_failure_not_reported :
    (tailed_file_content_reader ⟨none, none, -1, none⟩
        (sample_tailed_file TAILED_FILE_STATE_DUMP 0) 100 (List.replicate 16 0) 16).ret =
      MHD_CONTENT_READER_END_OF_STREAM ∧
    (tailed_file_content_reader ⟨none, none, -1, none⟩
        (sample_tailed_file TAILED_FILE_STATE_DUMP 0) 100 (List.replicate 16 0) 16).ret ≠
      MHD_CONTENT_READER_END_WITH_ERROR ∧
    (tailed_file_content_reader ⟨none, none, -1, none⟩
        { sample_tailed_file TAILED_FILE_STATE_DUMP 0 with rate_limit := 2 } 100
        (List.replicate 16 0) 16).ret =
      to_ssize_t (apply_rate_limit sbmh_init (List.replicate 16 0) SIZE_MAX 2 0).len := by
  refine ⟨by decide, by decide, ?_⟩
  simp [tailed_file_content_reader, dump_block, sample_tailed_file, SIZE_MAX]

/-- C6, the code at the failing input: when `stat` of the path fails, `open_tailed_file`
returns `NULL` and `send_slow_log` stores the rate limit through that pointer before it
tests it; no response is queued. -/
theorem send_slow_log_null_dereference :
    open_tailed_file ⟨true, true, none, -1, true, sample_tailed_file TAILED_FILE_STATE_START 0⟩
        "/var/log/mysql/slow.log" = none ∧
    send_slow_log ⟨true, true, none, -1, true, sample_tailed_file TAILED_FILE_STATE_START 0⟩
        true true "/var/log/mysql/slow.log" 1 = Except.error Fault.null_pointer_dereference := by
  constructor <;> rfl

end MysqlSlowlogd
